import Mathlib

set_option maxHeartbeats 1000000
set_option linter.unnecessarySimpa false

/-!
Verification of the mwcc MediaWiki API client (src/src/mwcc.ts and
src/unnamed/part_004, class MWCCStatic).  The TypeScript source is shallowly
embedded: JavaScript parameter objects become ordered association lists with
JS insertion-order update semantics, the network becomes an oracle mapping
the index of each HTTP request to the settled outcome of `ajax`, and the
mutable client state (token cache, request counter, transmitted payloads)
is threaded explicitly.
-/

namespace Mwcc

/-- JavaScript primitive values as they occur in `ApiParams`
(`string|number|bigint|boolean|null|undefined`; `bigint` is folded into the
integer case). -/
inductive Prim where
  | str (s : String)
  | num (n : Int)
  | bool (b : Bool)
  | null
  | undef
deriving DecidableEq, Repr

/-- JavaScript `String(v)` coercion for primitive values. -/
def jsString : Prim → String
  | Prim.str s => s
  | Prim.num n => toString n
  | Prim.bool b => if b then "true" else "false"
  | Prim.null => "null"
  | Prim.undef => "undefined"

/-- Element coercion used by `Array.prototype.join`: `null` and `undefined`
become the empty string, all other values their `String(v)` coercion. -/
def jsJoinElem : Prim → String
  | Prim.null => ""
  | Prim.undef => ""
  | p => jsString p

/-- The effect of `arr.join(\x27|\x27)` on an array of primitives. -/
def jsJoinPipe (l : List Prim) : String :=
  String.intercalate "|" (l.map jsJoinElem)

/-- A value of `ApiParams`: a primitive or an array of primitives. -/
inductive PVal where
  | prim (p : Prim)
  | arr (l : List Prim)
deriving DecidableEq, Repr

/-- A JavaScript object of API parameters: ordered key/value entries
(JavaScript objects enumerate string keys in insertion order and hold each
key at most once). -/
abbrev Params := List (String × PVal)

/-- The keys of an object, in order. -/
def jsKeys {α : Type} (l : List (String × α)) : List String :=
  l.map Prod.fst

/-- Property read `o[k]` (first occurrence). -/
def jsGet {α : Type} : List (String × α) → String → Option α
  | [], _ => none
  | (k₁, v) :: rest, k => if k₁ = k then some v else jsGet rest k

/-- Property write `o[k] = v`: replaces the value in place if the key is
present, otherwise appends the key at the end (JS insertion-order
semantics). -/
def jsSet {α : Type} : List (String × α) → String → α → List (String × α)
  | [], k, v => [(k, v)]
  | (k₁, v₁) :: rest, k, v =>
      if k₁ = k then (k, v) :: rest else (k₁, v₁) :: jsSet rest k v

/-- Property removal `delete o[k]` (first occurrence). -/
def jsDelete {α : Type} : List (String × α) → String → List (String × α)
  | [], _ => []
  | (k₁, v₁) :: rest, k => if k₁ = k then rest else (k₁, v₁) :: jsDelete rest k

/-- `Object.assign(target, src)`: copy the entries of `src` into `target` in
order. -/
def jsAssign {α : Type} (target src : List (String × α)) : List (String × α) :=
  src.foldl (fun acc e => jsSet acc e.1 e.2) target

/-- Embedding of `MWCC.preprocessParameters` (src/src/mwcc.ts:307-319,
identical in part_004): walking the parameter object, array values are
replaced by their pipe-joined string and entries whose value is `false` or
`undefined` are deleted; every other entry is kept unchanged. -/
def preprocessParameters : Params → Params
  | [] => []
  | (k, PVal.arr xs) :: rest =>
      (k, PVal.prim (Prim.str (jsJoinPipe xs))) :: preprocessParameters rest
  | (_, PVal.prim (Prim.bool false)) :: rest => preprocessParameters rest
  | (_, PVal.prim Prim.undef) :: rest => preprocessParameters rest
  | (k, v) :: rest => (k, v) :: preprocessParameters rest

/-- The fixed default parameters merged into every `ajax` call. -/
def defaultParams : Params :=
  [("action", PVal.prim (Prim.str "query")),
   ("format", PVal.prim (Prim.str "json")),
   ("formatversion", PVal.prim (Prim.str "2"))]

/-- Payload construction of `MWCC.ajax` (src/src/mwcc.ts:392-431, identical
in part_004), for an instance whose axios defaults carry the parameter map
`idefs` (empty under the default constructor configuration).  A `token`
entry is extracted before normalization only when its value is a string, and
re-appended after the merge only when that string is nonempty (the source
initializes `token` to the empty string and re-appends under `if (token)`).
Returns the ordered outgoing payload (laid out identically for GET
`options.params` and POST `options.data`) together with the value of the
caller-supplied parameter object after the call, because `ajax` mutates it
in place (token deletion and `preprocessParameters`). -/
def ajaxBuild (idefs : Params) (parameters : Params) : Params × Params :=
  let tp :=
    match jsGet parameters "token" with
    | some (PVal.prim (Prim.str s)) => (s, jsDelete parameters "token")
    | _ => ("", parameters)
  let processed := preprocessParameters tp.2
  let payload := jsAssign (jsAssign (jsAssign ([] : Params) idefs) defaultParams) processed
  let payload :=
    if tp.1 ≠ "" then jsSet payload "token" (PVal.prim (Prim.str tp.1)) else payload
  (payload, processed)

/-- The structured error payload carried by every rejection
(`\x7berror: \x7bcode, info\x7d\x7d`; the optional `details` field plays no
role in any claim). -/
structure ErrObj where
  code : String
  info : String
deriving DecidableEq, Repr

/-- The fields of a decoded successful API response that the client code
inspects: `query.tokens` for the token protocol and `continue` for the
continuation driver.  `none` models an absent field; `some []` an empty but
present (hence truthy) object. -/
structure Resp where
  queryTokens : Option (List (String × String)) := none
  resCont : Option Params := none
deriving DecidableEq, Repr

/-- The settled outcome of one `ajax` call: the decoded response body on
resolution, the structured error on rejection. -/
abbrev AjaxOut := Except ErrObj Resp

/-- A network oracle: the settled `ajax` outcome of the i-th HTTP request
issued by the client.  The transport and the response classification inside
`ajax` (ok-but-empty / invalidjson / http / aborted / API error
pass-through) are folded into this outcome, which is the level every claim
speaks at. -/
abbrev Oracle := Nat → AjaxOut

/-- Client-observable state: the token cache `this.tokens`, the number of
HTTP requests issued so far, and the payloads transmitted so far, in
order. -/
structure World where
  tokens : List (String × String)
  calls : Nat
  log : List Params
deriving DecidableEq, Repr

/-- One `ajax` call under the default instance configuration: build the
payload, consume the next oracle outcome, record the transmitted payload.
Also returns the value of the caller-supplied parameter object after the
in-place normalization performed by `ajax`. -/
def ajaxRun (oracle : Oracle) (w : World) (parameters : Params) :
    AjaxOut × World × Params :=
  let bp := ajaxBuild [] parameters
  (oracle w.calls, ⟨w.tokens, w.calls + 1, w.log ++ [bp.1]⟩, bp.2)

/-- Truthy lookup in a token map: an absent entry and an empty-string entry
are both falsy under the `if (cashedToken)` and `if (token)` tests of the
source. -/
def lookupTruthy (m : List (String × String)) (k : String) : Option String :=
  match jsGet m k with
  | some v => if v = "" then none else some v
  | none => none

/-- The legacy csrf token aliases (src/src/mwcc.ts:903-921, identical in
part_004). -/
def csrfActions : List String :=
  ["edit", "delete", "protect", "move", "block", "unblock", "email",
   "import", "options"]

/-- Embedding of `mapLegacyToken`: canonicalize a legacy token-type name to
`csrf`; every other name passes through unchanged. -/
def mapLegacyToken (action : String) : String :=
  if action ∈ csrfActions then "csrf" else action

/-- Body of `getToken` after the legacy-alias canonicalization
(src/src/mwcc.ts:552-600, identical in part_004): serve a truthy cached
token with no network call; otherwise issue one GET for
`meta=tokens&type=*` merged with the additional parameters, replace the
whole cache with the returned token set, and resolve the requested entry,
rejecting `badnamedtoken` when that entry is falsy and `ok-but-empty` when
the response carries no token object at all. -/
def getTokenCanon (oracle : Oracle) (w : World) (tokenType : String)
    (addl : Params) : Except ErrObj String × World :=
  let tokenName := tokenType ++ "token"
  match lookupTruthy w.tokens tokenName with
  | some cashedToken => (Except.ok cashedToken, w)
  | none =>
    let params := jsAssign
      [("meta", PVal.prim (Prim.str "tokens")), ("type", PVal.prim (Prim.str "*"))] addl
    let r := ajaxRun oracle w params
    match r.1 with
    | Except.error e => (Except.error e, r.2.1)
    | Except.ok res =>
      match res.queryTokens with
      | some resToken =>
        let w₂ := { r.2.1 with tokens := resToken }
        match lookupTruthy resToken tokenName with
        | some token => (Except.ok token, w₂)
        | none =>
          (Except.error ⟨"badnamedtoken",
            "Could not find a token named \"" ++ tokenType ++ "\" (check for typos?)"⟩, w₂)
      | none =>
        (Except.error ⟨"ok-but-empty", "OK response but empty result"⟩, r.2.1)

/-- Embedding of `getToken`: the type name is canonicalized up front, before
the cache is touched. -/
def getToken (oracle : Oracle) (w : World) (tokenType : String)
    (addl : Params) : Except ErrObj String × World :=
  getTokenCanon oracle w (mapLegacyToken tokenType) addl

/-- Embedding of `badToken` on the cache map (src/src/mwcc.ts:611-617,
identical in part_004): delete the entry for the canonicalized type when it
is truthy (a falsy entry is already as good as absent and is left alone). -/
def badTokenMap (tokens : List (String × String)) (tokenType : String) :
    List (String × String) :=
  let tokenName := mapLegacyToken tokenType ++ "token"
  match lookupTruthy tokens tokenName with
  | some _ => jsDelete tokens tokenName
  | none => tokens

/-- `badToken` as a state transformer on the client. -/
def badToken (w : World) (tokenType : String) : World :=
  { w with tokens := badTokenMap w.tokens tokenType }

/-- Default read of a possibly-absent property: `params.assert` is
`undefined` when the key is missing. -/
def jsGetD (p : Params) (k : String) : PVal :=
  (jsGet p k).getD (PVal.prim Prim.undef)

/-- The `\x7bassert, assertuser\x7d` object `postWithToken` extracts from
its parameters before the first token fetch. -/
def assertParamsOf (params : Params) : Params :=
  [("assert", jsGetD params "assert"), ("assertuser", jsGetD params "assertuser")]

/-- Embedding of `MWCCStatic.postWithToken` (src/unnamed/part_004:551-581):
fetch or reuse a token, attach it to the parameters, POST; when the POST
rejects with code `badtoken`, invalidate the cache entry, clear the token
field, fetch a fresh token and re-issue the POST exactly once, surfacing
whatever that retry produces; any other rejection propagates directly.  The
caller-supplied parameter object is threaded because both POSTs mutate it
in place. -/
def postWithToken (oracle : Oracle) (w : World) (tokenType : String)
    (params0 : Params) : AjaxOut × World × Params :=
  let assertParams := assertParamsOf params0
  match getToken oracle w tokenType assertParams with
  | (Except.error e, w₁) => (Except.error e, w₁, params0)
  | (Except.ok token, w₁) =>
    let params := jsSet params0 "token" (PVal.prim (Prim.str token))
    match ajaxRun oracle w₁ params with
    | (Except.ok res, w₂, p₂) => (Except.ok res, w₂, p₂)
    | (Except.error e, w₂, p₂) =>
      if e.code = "badtoken" then
        let w₃ := badToken w₂ tokenType
        let p₃ := jsSet p₂ "token" (PVal.prim Prim.undef)
        match getToken oracle w₃ tokenType assertParams with
        | (Except.error e₂, w₄) => (Except.error e₂, w₄, p₃)
        | (Except.ok t₂, w₄) =>
          let p₄ := jsSet p₃ "token" (PVal.prim (Prim.str t₂))
          ajaxRun oracle w₄ p₄
      else (Except.error e, w₂, p₂)

deriving instance DecidableEq for Except

/-- The observable fate of a promise: settled with an outcome, or forever
pending. -/
inductive PromiseOut where
  | settled (r : AjaxOut)
  | pending
deriving DecidableEq, Repr

/-- Embedding of `MWCC.postWithToken` (src/src/mwcc.ts:511-542).  The body
is identical to `MWCCStatic.postWithToken` except on the retry: the second
POST is issued as `return this.post(params, options)` with no
`.then(resolve)`, so when the retry POST resolves, nothing ever calls
`resolve` and the outer promise stays pending forever; its rejection still
reaches the trailing `.catch(reject)`. -/
def postWithTokenV1 (oracle : Oracle) (w : World) (tokenType : String)
    (params0 : Params) : PromiseOut × World × Params :=
  let assertParams := assertParamsOf params0
  match getToken oracle w tokenType assertParams with
  | (Except.error e, w₁) => (PromiseOut.settled (Except.error e), w₁, params0)
  | (Except.ok token, w₁) =>
    let params := jsSet params0 "token" (PVal.prim (Prim.str token))
    match ajaxRun oracle w₁ params with
    | (Except.ok res, w₂, p₂) => (PromiseOut.settled (Except.ok res), w₂, p₂)
    | (Except.error e, w₂, p₂) =>
      if e.code = "badtoken" then
        let w₃ := badToken w₂ tokenType
        let p₃ := jsSet p₂ "token" (PVal.prim Prim.undef)
        match getToken oracle w₃ tokenType assertParams with
        | (Except.error e₂, w₄) => (PromiseOut.settled (Except.error e₂), w₄, p₃)
        | (Except.ok t₂, w₄) =>
          let p₄ := jsSet p₃ "token" (PVal.prim (Prim.str t₂))
          match ajaxRun oracle w₄ p₄ with
          | (Except.ok _, w₅, p₅) => (PromiseOut.pending, w₅, p₅)
          | (Except.error e₂, w₅, p₅) =>
            (PromiseOut.settled (Except.error e₂), w₅, p₅)
      else (PromiseOut.settled (Except.error e), w₂, p₂)

/-- The recursive helper `req(params, count)` of `MWCCStatic.continuedQuery`
(src/unnamed/part_004:386-408).  Each step issues one GET (consuming the
next oracle outcome) and appends the raw settled value to the accumulator;
on resolution with a truthy `continue` object and `count < limit` it merges
that object into the (ajax-normalized, since `ajax` mutates it in place)
parameter object and recurses; otherwise it stops.  A rejection is appended
as its error value and stops the iteration, so the driver itself never
rejects.  `count < limit` holds exactly when `limit - count > 0`, so the
remaining allowance `fuel = limit - count` drives the recursion.  Returns
the accumulated outcomes and the total number of requests issued. -/
def contQueryAux (oracle : Oracle) :
    Nat → Params → Nat → List AjaxOut → List AjaxOut × Nat
  | fuel, params, calls, responses =>
    match oracle calls with
    | Except.error e => (responses ++ [Except.error e], calls + 1)
    | Except.ok res =>
      match res.resCont with
      | none => (responses ++ [Except.ok res], calls + 1)
      | some resCont =>
        match fuel with
        | 0 => (responses ++ [Except.ok res], calls + 1)
        | fuel₁ + 1 =>
          contQueryAux oracle fuel₁ (jsAssign (ajaxBuild [] params).2 resCont)
            (calls + 1) (responses ++ [Except.ok res])

/-- Embedding of `MWCCStatic.continuedQuery`: the attempt count starts at 1,
so the initial allowance is `limit - 1`; request indices start at oracle
index 0. -/
def continuedQuery (oracle : Oracle) (parameters : Params) (limit : Nat) :
    List AjaxOut × Nat :=
  contQueryAux oracle (limit - 1) parameters 0 []

/-- Specification helper: the number of requests a continuation run issues
when outcomes are read from `oracle` starting at request index `calls`,
with `fuel` further continuations allowed. -/
def runLen (oracle : Oracle) : Nat → Nat → Nat
  | _, 0 => 1
  | calls, fuel + 1 =>
    match oracle calls with
    | Except.error _ => 1
    | Except.ok res =>
      match res.resCont with
      | none => 1
      | some _ => 1 + runLen oracle (calls + 1) fuel

/-- A parameter value in the heap-aware model of `massQuery`: array values
are references into an array store, so that sharing between the caller
object and the copies the method builds stays observable. -/
inductive MQVal where
  | prim (p : Prim)
  | arrRef (r : Nat)
deriving DecidableEq, Repr

/-- A parameter object in the heap-aware model. -/
abbrev MQParams := List (String × MQVal)

/-- The array store: reference `r` names the array at index `r`. -/
abbrev Store := List (List Prim)

/-- Read an array from the store. -/
def storeGet (store : Store) (r : Nat) : List Prim :=
  store.getD r []

/-- Overwrite an array in the store (in-place array mutation such as
`splice`). -/
def storeSet (store : Store) (r : Nat) (v : List Prim) : Store :=
  store.set r v

/-- `val.map((v) => String(v))`: the fresh, string-coerced copy of a
multi-value array that `massQuery` builds for splitting. -/
def coerceArr (l : List Prim) : List Prim :=
  l.map (fun p => Prim.str (jsString p))

/-- The `Object.keys(parameters).reduce(...)` pass of `massQuery`
(src/unnamed/part_004:456-470), over the copied parameter object in key
order: a multi-value field is collected as a freshly allocated
string-coerced copy of its array, a non-array value under a named field is
recorded quoted in `nonArrayBatchParams`, and any other key ending in
`limit` is set to `"max"` when the apilimit is one of the default values
500 or 50.  Returns the updated object, the store extended with the fresh
allocations, the references of the collected arrays in order, and the
offending quoted names in order. -/
def mqScan (fields : List String) (apilimit : Nat) :
    MQParams → Store → MQParams × Store × List Nat × List String
  | [], store => ([], store, [], [])
  | (k, v) :: rest, store =>
    if k ∈ fields then
      match v with
      | MQVal.arrRef r =>
        let alloc := coerceArr (storeGet store r)
        let out := mqScan fields apilimit rest (store ++ [alloc])
        ((k, v) :: out.1, out.2.1, store.length :: out.2.2.1, out.2.2.2)
      | MQVal.prim p =>
        let out := mqScan fields apilimit rest store
        ((k, MQVal.prim p) :: out.1, out.2.1, out.2.2.1,
         ("\"" ++ k ++ "\"") :: out.2.2.2)
    else if k.endsWith "limit" ∧ (apilimit = 500 ∨ apilimit = 50) then
      let out := mqScan fields apilimit rest store
      ((k, MQVal.prim (Prim.str "max")) :: out.1, out.2.1, out.2.2.1, out.2.2.2)
    else
      let out := mqScan fields apilimit rest store
      ((k, v) :: out.1, out.2.1, out.2.2.1, out.2.2.2)

/-- The `while (batchArray.length)` loop of `massQuery`
(src/unnamed/part_004:513-521), with the batch array living in the store at
reference `bref`: each iteration splices up to `apilimit` elements off the
front (mutating the stored array), pipe-joins them, copies the parameter
object and sets every named field to the joined chunk, and issues one POST
(consuming the oracle in order; the per-chunk `.then(res => res).catch(err
=> err)` captures each outcome as a value).  `fuel` bounds the recursion:
`batch.length` suffices whenever `apilimit ≥ 1`; with `apilimit = 0` the
source loop would not terminate, which a total model cannot express.
Returns the chunk outcomes, the parameter objects posted per chunk, the
final store and the final request counter. -/
def mqLoop (oracle : Oracle) (fields : List String) (ps : MQParams)
    (apilimit : Nat) (bref : Nat) :
    Nat → Store → Nat → List AjaxOut × List MQParams × Store × Nat
  | 0, store, calls => ([], [], store, calls)
  | fuel + 1, store, calls =>
    let batch := storeGet store bref
    if batch.isEmpty then ([], [], store, calls)
    else
      let multiValue := jsJoinPipe (batch.take apilimit)
      let store₁ := storeSet store bref (batch.drop apilimit)
      let params := fields.foldl
        (fun p key => jsSet p key (MQVal.prim (Prim.str multiValue))) ps
      let rest := mqLoop oracle fields ps apilimit bref fuel store₁ (calls + 1)
      (oracle calls :: rest.1, params :: rest.2.1, rest.2.2.1, rest.2.2.2)

/-- The observable outcome of a `massQuery` call. -/
structure MQOut where
  /-- The settled value of the returned promise: a validation rejection, or
  the resolved list of per-chunk outcomes. -/
  result : Except ErrObj (List AjaxOut)
  /-- The parameter object handed to `post` for each chunk, in order. -/
  chunkLog : List MQParams
  /-- The array store after the call. -/
  store : Store
  /-- The value of the caller-supplied parameter object after the call. -/
  callerParams : MQParams
  /-- The request counter after the call. -/
  calls : Nat
deriving DecidableEq, Repr

/-- The truthiness filter applied to the `fields` argument of `massQuery`
(`.filter((v) => v)`: a string is truthy exactly when it is nonempty). -/
def truthyStr (s : String) : Bool :=
  s ≠ ""

/-- Embedding of `MWCCStatic.massQuery` (src/unnamed/part_004:447-525).  The
apilimit defaults to 50 (`this.apilimit`) when the option is not a number;
`fields` is filtered to its truthy (nonempty) entries; the parameter object
is shallow-copied by `Object.assign(\x7b\x7d, parameters)` before any write,
so every later write hits the copy `scan.1` and never the caller object.
Validation rejects, in source order: `nonarray-exception`, `emptyfield`,
`nomultivalue`, `nonindentical-arrays`; an empty batch array resolves
immediately with no request.  Otherwise the splice loop posts one chunk per
iteration and the promise resolves with all captured outcomes. -/
def massQuery (oracle : Oracle) (store0 : Store) (parameters : MQParams)
    (fields0 : List String) (apilimitOpt : Option Nat) (calls0 : Nat) : MQOut :=
  let apilimit := apilimitOpt.getD 50
  let fields := fields0.filter truthyStr
  let scan := mqScan fields apilimit parameters store0
  let ps := scan.1
  let store := scan.2.1
  let fvRefs := scan.2.2.1
  let nonArray := scan.2.2.2
  if nonArray ≠ [] then
    { result := Except.error ⟨"nonarray-exception",
        "The value(s) for " ++ String.intercalate ", " nonArray ++ " must be arrays"⟩,
      chunkLog := [], store := store, callerParams := parameters, calls := calls0 }
  else if fields = [] then
    { result := Except.error ⟨"emptyfield", "The \"fields\" parameter is empty"⟩,
      chunkLog := [], store := store, callerParams := parameters, calls := calls0 }
  else
    match fvRefs with
    | [] =>
      { result := Except.error ⟨"nomultivalue",
          "There\x27s no multi-value field (check for typos in parameter keys?)"⟩,
        chunkLog := [], store := store, callerParams := parameters, calls := calls0 }
    | bref :: restRefs =>
      if restRefs ≠ [] ∧ ¬ (∀ r ∈ restRefs, storeGet store r = storeGet store bref) then
        { result := Except.error ⟨"nonindentical-arrays",
            "The multi-value fields must all have the same array"⟩,
          chunkLog := [], store := store, callerParams := parameters, calls := calls0 }
      else
        let batchArray := storeGet store bref
        if batchArray = [] then
          { result := Except.ok [], chunkLog := [], store := store,
            callerParams := parameters, calls := calls0 }
        else
          let run := mqLoop oracle fields ps apilimit bref batchArray.length store calls0
          { result := Except.ok run.1, chunkLog := run.2.1, store := run.2.2.1,
            callerParams := parameters, calls := run.2.2.2 }

/-! ### Lemmas about the parameter normalizer -/

/-- The effect of one loop iteration of `preprocessParameters` on a single
entry, as an optional rewrite. -/
def normEntry (e : String × PVal) : Option (String × PVal) :=
  match e.2 with
  | PVal.arr xs => some (e.1, PVal.prim (Prim.str (jsJoinPipe xs)))
  | PVal.prim (Prim.bool false) => none
  | PVal.prim Prim.undef => none
  | v => some (e.1, v)

theorem preprocessParameters_eq_filterMap (ps : Params) :
    preprocessParameters ps = ps.filterMap normEntry := by
  induction ps with
  | nil => rfl
  | cons e rest ih =>
    obtain ⟨k, v⟩ := e
    cases v with
    | arr xs => simp [preprocessParameters, normEntry, ih]
    | prim p =>
      cases p with
      | str s => simp [preprocessParameters, normEntry, ih]
      | num n => simp [preprocessParameters, normEntry, ih]
      | bool b => cases b <;> simp [preprocessParameters, normEntry, ih]
      | null => simp [preprocessParameters, normEntry, ih]
      | undef => simp [preprocessParameters, normEntry, ih]

theorem normEntry_key {e e' : String × PVal} (h : normEntry e = some e') :
    e'.1 = e.1 := by
  obtain ⟨k, v⟩ := e
  cases v with
  | arr xs => simp [normEntry] at h; simp [← h]
  | prim p =>
    cases p with
    | str s => simp [normEntry] at h; simp [← h]
    | num n => simp [normEntry] at h; simp [← h]
    | bool b =>
      cases b with
      | false => simp [normEntry] at h
      | true => simp [normEntry] at h; simp [← h]
    | null => simp [normEntry] at h; simp [← h]
    | undef => simp [normEntry] at h

theorem normEntry_prim {e e' : String × PVal} (h : normEntry e = some e') :
    ∃ p, e'.2 = PVal.prim p := by
  obtain ⟨k, v⟩ := e
  cases v with
  | arr xs => simp [normEntry] at h; exact ⟨_, by rw [← h]⟩
  | prim p =>
    cases p with
    | str s => simp [normEntry] at h; exact ⟨_, by rw [← h]⟩
    | num n => simp [normEntry] at h; exact ⟨_, by rw [← h]⟩
    | bool b =>
      cases b with
      | false => simp [normEntry] at h
      | true => simp [normEntry] at h; exact ⟨_, by rw [← h]⟩
    | null => simp [normEntry] at h; exact ⟨_, by rw [← h]⟩
    | undef => simp [normEntry] at h

theorem nodup_keys_eq {α : Type} :
    ∀ (l : List (String × α)), (jsKeys l).Nodup →
      ∀ {k : String} {v₁ v₂ : α}, (k, v₁) ∈ l → (k, v₂) ∈ l → v₁ = v₂ := by
  intro l
  induction l with
  | nil => intro _ k v₁ v₂ h; cases h
  | cons e rest ih =>
    intro hnd k v₁ v₂ h₁ h₂
    simp only [jsKeys, List.map_cons, List.nodup_cons] at hnd
    rcases List.mem_cons.1 h₁ with h₁ | h₁ <;> rcases List.mem_cons.1 h₂ with h₂ | h₂
    · rw [← h₂] at h₁; exact congrArg Prod.snd h₁
    · exfalso
      have hk : k ∈ List.map Prod.fst rest := List.mem_map_of_mem Prod.fst h₂
      have he : e.1 = k := by rw [← h₁]
      rw [he] at hnd
      exact hnd.1 hk
    · exfalso
      have hk : k ∈ List.map Prod.fst rest := List.mem_map_of_mem Prod.fst h₁
      have he : e.1 = k := by rw [← h₂]
      rw [he] at hnd
      exact hnd.1 hk
    · exact ih hnd.2 h₁ h₂

/-- C5: for every parameter map, normalization removes every key whose value
is `false` or `undefined`, replaces every array value with the string
obtained by joining its elements with `|` (so no array value remains), and
leaves every other scalar value (numbers, strings, `null`, `true`)
unchanged under its key.  Normalization is a total function with no error
conditions. -/
theorem preprocessParameters_spec (ps : Params) (hnd : (jsKeys ps).Nodup) :
    (∀ k, ((k, PVal.prim (Prim.bool false)) ∈ ps ∨ (k, PVal.prim Prim.undef) ∈ ps) →
        k ∉ jsKeys (preprocessParameters ps)) ∧
    (∀ k xs, (k, PVal.arr xs) ∈ ps →
        (k, PVal.prim (Prim.str (jsJoinPipe xs))) ∈ preprocessParameters ps) ∧
    (∀ k p, (k, PVal.prim p) ∈ ps → p ≠ Prim.bool false → p ≠ Prim.undef →
        (k, PVal.prim p) ∈ preprocessParameters ps) ∧
    (∀ k xs, (k, PVal.arr xs) ∉ preprocessParameters ps) := by
  refine ⟨?_, ?_, ?_, ?_⟩
  · intro k hk hmem
    rw [preprocessParameters_eq_filterMap] at hmem
    simp only [jsKeys] at hmem
    obtain ⟨e', he', hk'⟩ := List.mem_map.1 hmem
    obtain ⟨e, he, hne⟩ := List.mem_filterMap.1 he'
    have hkey := normEntry_key hne
    obtain ⟨k₀, v₀⟩ := e
    have hk₀ : k₀ = k := by rw [← hk', hkey]
    subst hk₀
    rcases hk with hbad | hbad
    · have hv := nodup_keys_eq ps hnd he hbad
      rw [hv] at hne
      simp [normEntry] at hne
    · have hv := nodup_keys_eq ps hnd he hbad
      rw [hv] at hne
      simp [normEntry] at hne
  · intro k xs hmem
    rw [preprocessParameters_eq_filterMap]
    exact List.mem_filterMap.2 ⟨(k, PVal.arr xs), hmem, rfl⟩
  · intro k p hmem hf hu
    rw [preprocessParameters_eq_filterMap]
    refine List.mem_filterMap.2 ⟨(k, PVal.prim p), hmem, ?_⟩
    cases p with
    | str s => rfl
    | num n => rfl
    | bool b => cases b with
      | false => exact absurd rfl hf
      | true => rfl
    | null => rfl
    | undef => exact absurd rfl hu
  · intro k xs hmem
    rw [preprocessParameters_eq_filterMap] at hmem
    obtain ⟨e, _, hne⟩ := List.mem_filterMap.1 hmem
    obtain ⟨p, hp⟩ := normEntry_prim hne
    simp at hp

/-- Witness for C5 at a concrete parameter map: the `false`-valued key `b`
is removed, the array under `a` becomes its pipe-joined string (with `null`
joining as the empty string), and the numeric scalar under `c` survives
unchanged. -/
theorem preprocessParameters_spec_witness :
    (jsKeys [("a", PVal.arr [Prim.str "x", Prim.null]),
             ("b", PVal.prim (Prim.bool false)),
             ("c", PVal.prim (Prim.num 3))]).Nodup ∧
    "b" ∉ jsKeys (preprocessParameters
      [("a", PVal.arr [Prim.str "x", Prim.null]),
       ("b", PVal.prim (Prim.bool false)),
       ("c", PVal.prim (Prim.num 3))]) ∧
    ("a", PVal.prim (Prim.str "x|")) ∈ preprocessParameters
      [("a", PVal.arr [Prim.str "x", Prim.null]),
       ("b", PVal.prim (Prim.bool false)),
       ("c", PVal.prim (Prim.num 3))] ∧
    ("c", PVal.prim (Prim.num 3)) ∈ preprocessParameters
      [("a", PVal.arr [Prim.str "x", Prim.null]),
       ("b", PVal.prim (Prim.bool false)),
       ("c", PVal.prim (Prim.num 3))] :=
  ⟨by decide,
   (preprocessParameters_spec _ (by decide)).1 "b" (Or.inl (by decide)),
   by
     have h := (preprocessParameters_spec
       [("a", PVal.arr [Prim.str "x", Prim.null]),
        ("b", PVal.prim (Prim.bool false)),
        ("c", PVal.prim (Prim.num 3))] (by decide)).2.1 "a"
       [Prim.str "x", Prim.null] (by decide)
     simpa using h,
   (preprocessParameters_spec _ (by decide)).2.2.1 "c" (Prim.num 3) (by decide)
     (by decide) (by decide)⟩

/-! ### Lemmas about the object operations -/

theorem jsGet_jsSet_same {α : Type} :
    ∀ (l : List (String × α)) (k : String) (v : α), jsGet (jsSet l k v) k = some v := by
  intro l k v
  induction l with
  | nil => simp [jsSet, jsGet]
  | cons e rest ih =>
    by_cases h : e.1 = k
    · simp [jsSet, h, jsGet]
    · simpa [jsSet, h, jsGet] using ih

theorem jsSet_of_not_mem {α : Type} :
    ∀ (l : List (String × α)) (k : String) (v : α), k ∉ jsKeys l →
      jsSet l k v = l ++ [(k, v)] := by
  intro l k v
  induction l with
  | nil => intro _; rfl
  | cons e rest ih =>
    intro hk
    obtain ⟨k₀, v₀⟩ := e
    simp only [jsKeys, List.map_cons, List.mem_cons] at hk
    push_neg at hk
    have h₁ : ¬ k₀ = k := fun h => hk.1 h.symm
    simp [jsSet, h₁, ih (by simpa [jsKeys] using hk.2)]

theorem mem_keys_jsSet {α : Type} :
    ∀ (l : List (String × α)) (k k₁ : String) (v : α),
      k₁ ∈ jsKeys (jsSet l k v) → k₁ ∈ jsKeys l ∨ k₁ = k := by
  intro l k k₁ v
  induction l with
  | nil => intro h; simpa [jsSet, jsKeys] using h
  | cons e rest ih =>
    intro h
    obtain ⟨k₀, v₀⟩ := e
    by_cases he : k₀ = k
    · rw [jsSet, if_pos he] at h
      simp only [jsKeys, List.map_cons, List.mem_cons] at h ⊢
      rcases h with h | h
      · exact Or.inr h
      · exact Or.inl (Or.inr h)
    · rw [jsSet, if_neg he] at h
      simp only [jsKeys, List.map_cons, List.mem_cons] at h ⊢
      rcases h with h | h
      · exact Or.inl (Or.inl h)
      · rcases ih (by simpa [jsKeys] using h) with h₂ | h₂
        · exact Or.inl (Or.inr (by simpa [jsKeys] using h₂))
        · exact Or.inr h₂

theorem mem_keys_jsDelete {α : Type} :
    ∀ (l : List (String × α)) (k k₁ : String),
      k₁ ∈ jsKeys (jsDelete l k) → k₁ ∈ jsKeys l := by
  intro l k k₁
  induction l with
  | nil => intro h; simpa [jsDelete, jsKeys] using h
  | cons e rest ih =>
    intro h
    obtain ⟨k₀, v₀⟩ := e
    by_cases he : k₀ = k
    · rw [jsDelete, if_pos he] at h
      simp only [jsKeys, List.map_cons, List.mem_cons]
      exact Or.inr (by simpa [jsKeys] using h)
    · rw [jsDelete, if_neg he] at h
      simp only [jsKeys, List.map_cons, List.mem_cons] at h ⊢
      rcases h with h | h
      · exact Or.inl h
      · exact Or.inr (by simpa [jsKeys] using ih (by simpa [jsKeys] using h))

theorem not_mem_keys_jsDelete_self {α : Type} :
    ∀ (l : List (String × α)) (k : String), (jsKeys l).Nodup →
      k ∉ jsKeys (jsDelete l k) := by
  intro l k
  induction l with
  | nil => intro _ h; simp [jsDelete, jsKeys] at h
  | cons e rest ih =>
    intro hnd h
    obtain ⟨k₀, v₀⟩ := e
    simp only [jsKeys, List.map_cons, List.nodup_cons] at hnd
    by_cases he : k₀ = k
    · rw [he] at hnd
      rw [jsDelete, if_pos he] at h
      exact hnd.1 (by simpa [jsKeys] using h)
    · rw [jsDelete, if_neg he] at h
      simp only [jsKeys, List.map_cons, List.mem_cons] at h
      rcases h with h | h
      · exact he h.symm
      · exact ih (by simpa [jsKeys] using hnd.2) (by simpa [jsKeys] using h)

theorem keys_preprocess_sublist :
    ∀ ps : Params, (jsKeys (preprocessParameters ps)).Sublist (jsKeys ps) := by
  intro ps
  rw [preprocessParameters_eq_filterMap]
  induction ps with
  | nil => simp [jsKeys]
  | cons e rest ih =>
    cases hne : normEntry e with
    | none =>
      simp only [List.filterMap_cons, hne]
      exact ih.trans (by simp [jsKeys])
    | some e' =>
      simp only [List.filterMap_cons, hne]
      have hk := normEntry_key hne
      simp only [jsKeys, List.map_cons, hk]
      exact List.Sublist.cons₂ e.1 ih

theorem mem_keys_jsAssign {α : Type} :
    ∀ (src target : List (String × α)) (k : String),
      k ∈ jsKeys (jsAssign target src) → k ∈ jsKeys target ∨ k ∈ jsKeys src := by
  intro src
  induction src with
  | nil => intro target k h; exact Or.inl h
  | cons e rest ih =>
    intro target k h
    simp only [jsAssign, List.foldl_cons] at h
    rcases ih (jsSet target e.1 e.2) k h with h₂ | h₂
    · rcases mem_keys_jsSet target e.1 k e.2 h₂ with h₃ | h₃
      · exact Or.inl h₃
      · exact Or.inr (by simp [jsKeys, h₃])
    · exact Or.inr (by simp only [jsKeys, List.map_cons, List.mem_cons]; exact Or.inr h₂)

/-! ### Lemmas about the token cache -/

theorem jsGet_not_mem {α : Type} :
    ∀ (l : List (String × α)) (k : String), k ∉ jsKeys l → jsGet l k = none := by
  intro l k
  induction l with
  | nil => intro _; rfl
  | cons e rest ih =>
    intro hk
    obtain ⟨k₀, v₀⟩ := e
    simp only [jsKeys, List.map_cons, List.mem_cons] at hk
    push_neg at hk
    have h₁ : ¬ k₀ = k := fun h => hk.1 h.symm
    simp [jsGet, h₁, ih (by simpa [jsKeys] using hk.2)]

theorem lookupTruthy_badTokenMap (tokens : List (String × String))
    (tokenType : String) (hnd : (jsKeys tokens).Nodup) :
    lookupTruthy (badTokenMap tokens tokenType)
      (mapLegacyToken tokenType ++ "token") = none := by
  unfold badTokenMap
  rcases h : lookupTruthy tokens (mapLegacyToken tokenType ++ "token") with _ | c
  · simpa [h] using h
  · simp only [h]
    unfold lookupTruthy
    rw [jsGet_not_mem _ _ (not_mem_keys_jsDelete_self tokens _ hnd)]

theorem badTokenMap_idem (tokens : List (String × String)) (tokenType : String)
    (hnd : (jsKeys tokens).Nodup) :
    badTokenMap (badTokenMap tokens tokenType) tokenType
      = badTokenMap tokens tokenType := by
  conv_lhs => rw [badTokenMap]
  rw [lookupTruthy_badTokenMap tokens tokenType hnd]

theorem keys_jsSet_mem {α : Type} :
    ∀ (l : List (String × α)) (k : String) (v : α), k ∈ jsKeys l →
      jsKeys (jsSet l k v) = jsKeys l := by
  intro l k v
  induction l with
  | nil => intro h; simp [jsKeys] at h
  | cons e rest ih =>
    intro hk
    obtain ⟨k₀, v₀⟩ := e
    by_cases he : k₀ = k
    · rw [jsSet, if_pos he]
      simp [jsKeys, he]
    · rw [jsSet, if_neg he]
      have hk₂ : k ∈ jsKeys rest := by
        simp only [jsKeys, List.map_cons, List.mem_cons] at hk
        rcases hk with hk | hk
        · exact absurd hk.symm he
        · simpa [jsKeys] using hk
      simp only [jsKeys, List.map_cons]
      rw [show List.map Prod.fst (jsSet rest k v) = List.map Prod.fst rest from ih hk₂]

theorem nodup_keys_jsSet {α : Type} (l : List (String × α)) (k : String) (v : α)
    (h : (jsKeys l).Nodup) : (jsKeys (jsSet l k v)).Nodup := by
  by_cases hk : k ∈ jsKeys l
  · rw [keys_jsSet_mem l k v hk]; exact h
  · rw [jsSet_of_not_mem l k v hk]
    simp only [jsKeys, List.map_append, List.map_cons, List.map_nil]
    rw [List.nodup_append]
    refine ⟨h, List.nodup_singleton k, ?_⟩
    intro a ha hb
    simp only [List.mem_singleton] at hb
    exact hk (hb ▸ ha)

theorem keys_jsDelete_sublist {α : Type} :
    ∀ (l : List (String × α)) (k : String),
      (jsKeys (jsDelete l k)).Sublist (jsKeys l) := by
  intro l k
  induction l with
  | nil => simp [jsDelete, jsKeys]
  | cons e rest ih =>
    obtain ⟨k₀, v₀⟩ := e
    by_cases he : k₀ = k
    · rw [jsDelete, if_pos he]
      simp only [jsKeys, List.map_cons]
      exact (List.sublist_cons_self _ _)
    · rw [jsDelete, if_neg he]
      simp only [jsKeys, List.map_cons]
      exact List.Sublist.cons₂ k₀ ih

theorem nodup_keys_jsDelete {α : Type} (l : List (String × α)) (k : String)
    (h : (jsKeys l).Nodup) : (jsKeys (jsDelete l k)).Nodup :=
  (keys_jsDelete_sublist l k).nodup h

theorem nodup_keys_preprocess (ps : Params) (h : (jsKeys ps).Nodup) :
    (jsKeys (preprocessParameters ps)).Nodup :=
  (keys_preprocess_sublist ps).nodup h

theorem lookupTruthy_some_ne_empty {m : List (String × String)} {k t : String}
    (h : lookupTruthy m k = some t) : t ≠ "" := by
  unfold lookupTruthy at h
  rcases hg : jsGet m k with _ | v
  · rw [hg] at h; simp at h
  · rw [hg] at h
    dsimp only at h
    by_cases hv : v = ""
    · rw [if_pos hv] at h; simp at h
    · rw [if_neg hv] at h
      simp only [Option.some.injEq] at h
      rw [← h]; exact hv

/-- C8 counterexample: the claim is false as stated.  A `token` key whose
value is not a string is not extracted at all (the source only extracts
under `typeof parameters.token === \x27string\x27`), so with
`\x7btoken: 5, foo: "x"\x7d` the payload ends with `foo`, not `token`; and a
`token` key holding the empty string is extracted but never re-appended
(the source re-appends under `if (token)`), so the payload ends with the
default `formatversion` entry and carries no token at all. -/
theorem ajax_token_counterexample :
    (ajaxBuild [] [("token", PVal.prim (Prim.num 5)),
                   ("foo", PVal.prim (Prim.str "x"))]).1.getLast?
        = some ("foo", PVal.prim (Prim.str "x")) ∧
    (ajaxBuild [] [("token", PVal.prim (Prim.str ""))]).1.getLast?
        = some ("formatversion", PVal.prim (Prim.str "2")) ∧
    "token" ∉ jsKeys (ajaxBuild [] [("token", PVal.prim (Prim.str ""))]).1 := by
  refine ⟨rfl, rfl, by decide⟩

/-- C8 (amended): for every `ajax` call (and hence `get`/`post`) whose
parameter map holds a `token` key with a nonempty string value, and whose
instance defaults do not themselves define `token`, the token is extracted
before normalization and re-inserted as the last entry of the outgoing
payload (the same map serves as GET query-string map and POST form body),
so the token is the final transmitted parameter. -/
theorem ajax_token_last (idefs parameters : Params) (t : String)
    (hnd : (jsKeys parameters).Nodup)
    (hid : "token" ∉ jsKeys idefs)
    (hget : jsGet parameters "token" = some (PVal.prim (Prim.str t)))
    (ht : t ≠ "") :
    ∃ front,
      (ajaxBuild idefs parameters).1 = front ++ [("token", PVal.prim (Prim.str t))] ∧
      "token" ∉ jsKeys front := by
  have hbuild : (ajaxBuild idefs parameters).1 =
      jsSet (jsAssign (jsAssign (jsAssign ([] : Params) idefs) defaultParams)
        (preprocessParameters (jsDelete parameters "token")))
        "token" (PVal.prim (Prim.str t)) := by
    simp only [ajaxBuild, hget]
    rw [if_pos ht]
  set payload := jsAssign (jsAssign (jsAssign ([] : Params) idefs) defaultParams)
    (preprocessParameters (jsDelete parameters "token")) with hp
  have hnotok : "token" ∉ jsKeys payload := by
    intro hmem
    rcases mem_keys_jsAssign _ _ _ hmem with h₁ | h₁
    · rcases mem_keys_jsAssign _ _ _ h₁ with h₂ | h₂
      · rcases mem_keys_jsAssign _ _ _ h₂ with h₃ | h₃
        · simp [jsKeys] at h₃
        · exact hid h₃
      · simp [jsKeys, defaultParams] at h₂
    · have h₂ := (keys_preprocess_sublist _).mem h₁
      exact not_mem_keys_jsDelete_self parameters "token" hnd h₂
  refine ⟨payload, ?_, hnotok⟩
  rw [hbuild, jsSet_of_not_mem _ _ _ hnotok]

/-- Witness for C8 (amended) at a concrete call: with parameters
`\x7btoken: "T", foo: "x"\x7d` the payload is some front free of `token`
followed by the final entry `token = "T"`. -/
theorem ajax_token_last_witness :
    (jsKeys [("token", PVal.prim (Prim.str "T")),
             ("foo", PVal.prim (Prim.str "x"))]).Nodup ∧
    ∃ front,
      (ajaxBuild [] [("token", PVal.prim (Prim.str "T")),
                     ("foo", PVal.prim (Prim.str "x"))]).1
        = front ++ [("token", PVal.prim (Prim.str "T"))] ∧
      "token" ∉ jsKeys front :=
  ⟨by decide,
   ajax_token_last [] [("token", PVal.prim (Prim.str "T")),
     ("foo", PVal.prim (Prim.str "x"))] "T" (by decide) (by decide) (by decide)
     (by decide)⟩

/-- Characterization of a successful `getTokenCanon`: afterwards the cache
holds the resolved token truthily under the canonical name, and the call
either served the cache (world unchanged) or issued exactly one request. -/
theorem getTokenCanon_ok (oracle : Oracle) (w : World) (tt : String)
    (addl : Params) (t : String) (w₁ : World)
    (h : getTokenCanon oracle w tt addl = (Except.ok t, w₁)) :
    lookupTruthy w₁.tokens (tt ++ "token") = some t ∧
      (w₁ = w ∨ w₁.calls = w.calls + 1) := by
  unfold getTokenCanon at h
  simp only [ajaxRun] at h
  split at h
  · rename_i cashedToken heq
    simp only [Prod.mk.injEq, Except.ok.injEq] at h
    obtain ⟨h₁, h₂⟩ := h
    subst h₁
    subst h₂
    exact ⟨heq, Or.inl rfl⟩
  · rename_i heq
    split at h
    · exact absurd h (by simp)
    · rename_i res heq₂
      split at h
      · rename_i tm heq₃
        split at h
        · rename_i tok heq₄
          simp only [Prod.mk.injEq, Except.ok.injEq] at h
          obtain ⟨h₁, h₂⟩ := h
          subst h₁
          subst h₂
          exact ⟨heq₄, Or.inr rfl⟩
        · exact absurd h (by simp)
      · exact absurd h (by simp)

/-- C6: `getToken` resolves from the cache with no network call whenever a
(truthy) cached token exists for the canonicalized type, and issues exactly
one network request when none exists; two consecutive `getToken` calls for
the same type with no intervening `badToken` or failure issue at most one
network call in total (the second is always served from the cache and
leaves the world unchanged); `badToken` removes the cached entry, is
idempotent when the entry is already absent, and after it the very next
`getToken` for that type always issues a network call. -/
theorem getToken_cache_spec (oracle : Oracle) (w : World) (tokenType : String)
    (addl : Params) (hnd : (jsKeys w.tokens).Nodup) :
    (∀ t, lookupTruthy w.tokens (mapLegacyToken tokenType ++ "token") = some t →
        getToken oracle w tokenType addl = (Except.ok t, w)) ∧
    (lookupTruthy w.tokens (mapLegacyToken tokenType ++ "token") = none →
        (getToken oracle w tokenType addl).2.calls = w.calls + 1) ∧
    (∀ t w₁, getToken oracle w tokenType addl = (Except.ok t, w₁) →
        getToken oracle w₁ tokenType addl = (Except.ok t, w₁) ∧
        w₁.calls ≤ w.calls + 1) ∧
    ((getToken oracle (badToken w tokenType) tokenType addl).2.calls
        = (badToken w tokenType).calls + 1) ∧
    (badToken (badToken w tokenType) tokenType = badToken w tokenType) ∧
    (lookupTruthy (badToken w tokenType).tokens
        (mapLegacyToken tokenType ++ "token") = none) := by
  have hit : ∀ (w₂ : World) t,
      lookupTruthy w₂.tokens (mapLegacyToken tokenType ++ "token") = some t →
      getToken oracle w₂ tokenType addl = (Except.ok t, w₂) := by
    intro w₂ t h
    unfold getToken getTokenCanon
    simp only [ajaxRun, h]
  have miss : ∀ (w₂ : World),
      lookupTruthy w₂.tokens (mapLegacyToken tokenType ++ "token") = none →
      (getToken oracle w₂ tokenType addl).2.calls = w₂.calls + 1 := by
    intro w₂ h
    unfold getToken getTokenCanon
    simp only [ajaxRun, h]
    split
    · rfl
    · split
      · split
        · rfl
        · rfl
      · rfl
  refine ⟨fun t h => hit w t h, miss w, ?_, ?_, ?_, ?_⟩
  · intro t w₁ h
    have hc := getTokenCanon_ok oracle w (mapLegacyToken tokenType) addl t w₁ h
    refine ⟨hit w₁ t hc.1, ?_⟩
    rcases hc.2 with h₂ | h₂
    · rw [h₂]; exact Nat.le_succ _
    · rw [h₂]
  · exact miss _ (lookupTruthy_badTokenMap w.tokens tokenType hnd)
  · unfold badToken
    simp only
    rw [badTokenMap_idem w.tokens tokenType hnd]
  · exact lookupTruthy_badTokenMap w.tokens tokenType hnd

/-- Witness for C6: with a cached csrf token `T` the call resolves `T` and
leaves the world untouched, and after `badToken` the next call issues one
request. -/
theorem getToken_cache_spec_witness :
    lookupTruthy (⟨[("csrftoken", "T")], 0, []⟩ : World).tokens
        (mapLegacyToken "csrf" ++ "token") = some "T" ∧
    getToken (fun _ => Except.error ⟨"http", ""⟩) ⟨[("csrftoken", "T")], 0, []⟩
        "csrf" [] = (Except.ok "T", ⟨[("csrftoken", "T")], 0, []⟩) ∧
    (getToken (fun _ => Except.error ⟨"http", ""⟩)
        (badToken ⟨[("csrftoken", "T")], 0, []⟩ "csrf") "csrf" []).2.calls
      = (badToken ⟨[("csrftoken", "T")], 0, []⟩ "csrf").calls + 1 :=
  ⟨by decide,
   (getToken_cache_spec (fun _ => Except.error ⟨"http", ""⟩)
      ⟨[("csrftoken", "T")], 0, []⟩ "csrf" [] (by decide)).1 "T" (by decide),
   (getToken_cache_spec (fun _ => Except.error ⟨"http", ""⟩)
      ⟨[("csrftoken", "T")], 0, []⟩ "csrf" [] (by decide)).2.2.2.1⟩

/-- C7: when `getToken` goes to the network (cache miss), a response
carrying a token object replaces the entire token cache with the returned
set (no entry-by-entry merge) and the call resolves with the requested
entry; if the requested entry is missing (falsy) in that set the call
rejects with code `badnamedtoken` naming the canonical type; if the
response carries no token object at all the call rejects with code
`ok-but-empty` (and the cache is left as it was). -/
theorem getToken_fetch_spec (oracle : Oracle) (w : World) (tokenType : String)
    (addl : Params)
    (hmiss : lookupTruthy w.tokens (mapLegacyToken tokenType ++ "token") = none) :
    (∀ res tm, oracle w.calls = Except.ok res → res.queryTokens = some tm →
      ((getToken oracle w tokenType addl).2.tokens = tm ∧
       (∀ t, lookupTruthy tm (mapLegacyToken tokenType ++ "token") = some t →
          (getToken oracle w tokenType addl).1 = Except.ok t) ∧
       (lookupTruthy tm (mapLegacyToken tokenType ++ "token") = none →
          (getToken oracle w tokenType addl).1 = Except.error
            ⟨"badnamedtoken", "Could not find a token named \"" ++
              mapLegacyToken tokenType ++ "\" (check for typos?)"⟩))) ∧
    (∀ res, oracle w.calls = Except.ok res → res.queryTokens = none →
      ((getToken oracle w tokenType addl).1
          = Except.error ⟨"ok-but-empty", "OK response but empty result"⟩ ∧
       (getToken oracle w tokenType addl).2.tokens = w.tokens)) := by
  constructor
  · intro res tm ho hq
    unfold getToken getTokenCanon
    simp only [ajaxRun, hmiss, ho, hq]
    refine ⟨?_, ?_, ?_⟩
    · split <;> rfl
    · intro t ht
      simp only [ht]
    · intro ht
      simp only [ht]
  · intro res ho hq
    unfold getToken getTokenCanon
    simp [ajaxRun, hmiss, ho, hq]

/-- The network oracle used by the C7 witness: a single response carrying a
full token set. -/
def oracleTokens : Oracle :=
  fun _ => Except.ok { queryTokens := some [("csrftoken", "abc"), ("watchtoken", "w")] }

/-- Witness for C7 at a concrete fetch: an empty cache forces the network,
the returned set replaces the cache wholesale, and the requested csrf entry
resolves. -/
theorem getToken_fetch_spec_witness :
    lookupTruthy (⟨[("logintoken", "L")], 0, []⟩ : World).tokens
        (mapLegacyToken "csrf" ++ "token") = none ∧
    (getToken oracleTokens ⟨[("logintoken", "L")], 0, []⟩ "csrf" []).2.tokens
        = [("csrftoken", "abc"), ("watchtoken", "w")] ∧
    (getToken oracleTokens ⟨[("logintoken", "L")], 0, []⟩ "csrf" []).1
        = Except.ok "abc" := by
  have h := getToken_fetch_spec oracleTokens ⟨[("logintoken", "L")], 0, []⟩
    "csrf" [] (by decide)
  have h₁ := h.1 { queryTokens := some [("csrftoken", "abc"), ("watchtoken", "w")] }
    [("csrftoken", "abc"), ("watchtoken", "w")] rfl rfl
  exact ⟨by decide, h₁.1, h₁.2.1 "abc" (by decide)⟩

/-- C9: every legacy token-type name in
edit/delete/protect/move/block/unblock/email/import/options canonicalizes
to `csrf` up front, so `getToken`, `badToken` and `postWithToken` behave
identically on a legacy name and on `csrf` (same cache slot, same outgoing
request, same resulting state); names outside the legacy set pass through
`mapLegacyToken` unchanged. -/
theorem legacy_token_alias :
    (∀ a ∈ csrfActions, mapLegacyToken a = "csrf") ∧
    (∀ a, a ∉ csrfActions → mapLegacyToken a = a) ∧
    (∀ a ∈ csrfActions, ∀ oracle w addl,
        getToken oracle w a addl = getToken oracle w "csrf" addl) ∧
    (∀ a ∈ csrfActions, ∀ w, badToken w a = badToken w "csrf") ∧
    (∀ a ∈ csrfActions, ∀ oracle w params,
        postWithToken oracle w a params = postWithToken oracle w "csrf" params) := by
  have hcsrf : mapLegacyToken "csrf" = "csrf" := by decide
  have h₁ : ∀ a ∈ csrfActions, mapLegacyToken a = "csrf" := by
    intro a ha
    simp [mapLegacyToken, ha]
  have h₃ : ∀ a ∈ csrfActions, ∀ oracle w addl,
      getToken oracle w a addl = getToken oracle w "csrf" addl := by
    intro a ha oracle w addl
    unfold getToken
    rw [h₁ a ha, hcsrf]
  have h₄ : ∀ a ∈ csrfActions, ∀ w, badToken w a = badToken w "csrf" := by
    intro a ha w
    unfold badToken badTokenMap
    rw [h₁ a ha, hcsrf]
  have h₅ : ∀ a ∈ csrfActions, ∀ oracle w params,
      postWithToken oracle w a params = postWithToken oracle w "csrf" params := by
    intro a ha oracle w params
    unfold postWithToken
    simp only [h₃ a ha, h₄ a ha]
  refine ⟨h₁, ?_, h₃, h₄, h₅⟩
  intro a ha
  simp [mapLegacyToken, ha]

/-- Witness for C9: `edit` is canonicalized to `csrf` and behaves like it;
`rollback` passes through unchanged. -/
theorem legacy_token_alias_witness :
    mapLegacyToken "edit" = "csrf" ∧
    mapLegacyToken "rollback" = "rollback" ∧
    getToken oracleTokens ⟨[], 0, []⟩ "edit" []
      = getToken oracleTokens ⟨[], 0, []⟩ "csrf" [] ∧
    badToken ⟨[("csrftoken", "T")], 0, []⟩ "edit"
      = badToken ⟨[("csrftoken", "T")], 0, []⟩ "csrf" :=
  ⟨legacy_token_alias.1 "edit" (by decide),
   legacy_token_alias.2.1 "rollback" (by decide),
   legacy_token_alias.2.2.1 "edit" (by decide) oracleTokens ⟨[], 0, []⟩ [],
   legacy_token_alias.2.2.2.1 "edit" (by decide) ⟨[("csrftoken", "T")], 0, []⟩⟩

/-- C1: behaviour of `postWithToken` when the first token acquisition
succeeds (resolving `t` in world `w₁`) and the first POST rejects.  A
rejection whose code is not `badtoken` propagates immediately with no
retry (one single POST was issued) in both `MWCC.postWithToken` and
`MWCCStatic.postWithToken`.  On a `badtoken` rejection the cache entry is
invalidated, the token field cleared, a fresh token `t₂` fetched over the
network (the refetch always hits the network: three requests in total) and
the POST re-issued exactly once, the last transmitted payload carrying
`token = t₂` as its final parameter; `MWCCStatic.postWithToken` settles
with whatever that second attempt produces, while `MWCC.postWithToken`
settles only when the retry rejects and stays pending forever when the
retry resolves, because its retry chain never calls `resolve`. -/
theorem postWithToken_badtoken_retry
    (oracle : Oracle) (w : World) (tokenType : String) (params0 : Params)
    (t : String) (w₁ : World) (e : ErrObj)
    (hnd0 : (jsKeys params0).Nodup)
    (hgt : getToken oracle w tokenType (assertParamsOf params0) = (Except.ok t, w₁))
    (hndtok : (jsKeys w₁.tokens).Nodup)
    (hpost : oracle w₁.calls = Except.error e) :
    (e.code ≠ "badtoken" →
      (postWithToken oracle w tokenType params0).1 = Except.error e ∧
      (postWithToken oracle w tokenType params0).2.1.calls = w₁.calls + 1 ∧
      (postWithTokenV1 oracle w tokenType params0).1
        = PromiseOut.settled (Except.error e)) ∧
    (e.code = "badtoken" →
      ∀ r₂ tm t₂, oracle (w₁.calls + 1) = Except.ok r₂ → r₂.queryTokens = some tm →
        lookupTruthy tm (mapLegacyToken tokenType ++ "token") = some t₂ →
        ((postWithToken oracle w tokenType params0).1 = oracle (w₁.calls + 2) ∧
         (postWithToken oracle w tokenType params0).2.1.calls = w₁.calls + 3 ∧
         (postWithToken oracle w tokenType params0).2.1.tokens = tm ∧
         (∃ pl, (postWithToken oracle w tokenType params0).2.1.log.getLast? = some pl ∧
            pl.getLast? = some ("token", PVal.prim (Prim.str t₂))) ∧
         (postWithTokenV1 oracle w tokenType params0).1 =
           (match oracle (w₁.calls + 2) with
            | Except.ok _ => PromiseOut.pending
            | Except.error e₂ => PromiseOut.settled (Except.error e₂)))) := by
  constructor
  · intro hne
    refine ⟨?_, ?_, ?_⟩
    · unfold postWithToken
      simp only [hgt, ajaxRun, hpost]
      rw [if_neg hne]
    · unfold postWithToken
      simp only [hgt, ajaxRun, hpost]
      rw [if_neg hne]
    · unfold postWithTokenV1
      simp only [hgt, ajaxRun, hpost]
      rw [if_neg hne]
  · intro heq r₂ tm t₂ ho₂ hq₂ hl₂
    have ht₂ : t₂ ≠ "" := lookupTruthy_some_ne_empty hl₂
    set P₁ := jsSet params0 "token" (PVal.prim (Prim.str t)) with hP₁def
    set L₂ := w₁.log ++ [(ajaxBuild [] P₁).1] with hL₂def
    set tokenReq := jsAssign
      [("meta", PVal.prim (Prim.str "tokens")), ("type", PVal.prim (Prim.str "*"))]
      (assertParamsOf params0) with hTRdef
    set P₄ := jsSet (jsSet (ajaxBuild [] P₁).2 "token" (PVal.prim Prim.undef))
      "token" (PVal.prim (Prim.str t₂)) with hP₄def
    have hgt₂ : getToken oracle
        (badToken (⟨w₁.tokens, w₁.calls + 1, L₂⟩ : World) tokenType) tokenType
        (assertParamsOf params0)
        = (Except.ok t₂,
           ⟨tm, w₁.calls + 1 + 1, L₂ ++ [(ajaxBuild [] tokenReq).1]⟩) := by
      unfold getToken getTokenCanon
      simp only [badToken, ajaxRun,
        lookupTruthy_badTokenMap w₁.tokens tokenType hndtok, ho₂, hq₂, hl₂]
    have hfull : postWithToken oracle w tokenType params0 =
        (oracle (w₁.calls + 1 + 1),
         ⟨tm, w₁.calls + 1 + 1 + 1,
           (L₂ ++ [(ajaxBuild [] tokenReq).1]) ++ [(ajaxBuild [] P₄).1]⟩,
         (ajaxBuild [] P₄).2) := by
      unfold postWithToken
      simp only [hgt, ajaxRun, hpost]
      rw [if_pos heq]
      simp only [hgt₂, ajaxRun]
    have hlast : ∃ front, (ajaxBuild [] P₄).1
        = front ++ [("token", PVal.prim (Prim.str t₂))] ∧
        "token" ∉ jsKeys front := by
      have hp₂ : (ajaxBuild [] P₁).2
          = preprocessParameters (jsDelete P₁ "token") := by
        rw [hP₁def]
        unfold ajaxBuild
        simp only [jsGet_jsSet_same]
      have hnd₄ : (jsKeys P₄).Nodup := by
        apply nodup_keys_jsSet
        apply nodup_keys_jsSet
        rw [hp₂]
        exact nodup_keys_preprocess _
          (nodup_keys_jsDelete _ _ (nodup_keys_jsSet _ _ _ hnd0))
      exact ajax_token_last [] P₄ t₂ hnd₄ (by simp [jsKeys])
        (jsGet_jsSet_same _ _ _) ht₂
    obtain ⟨front, hfr, _⟩ := hlast
    refine ⟨?_, ?_, ?_, ?_, ?_⟩
    · rw [hfull]
    · rw [hfull]
    · rw [hfull]
    · refine ⟨(ajaxBuild [] P₄).1, ?_, ?_⟩
      · rw [hfull]
        exact List.getLast?_concat _
      · rw [hfr]
        exact List.getLast?_concat front
    · have hfullV1 : postWithTokenV1 oracle w tokenType params0 =
          (match oracle (w₁.calls + 1 + 1) with
           | Except.ok _ => PromiseOut.pending
           | Except.error e₂ => PromiseOut.settled (Except.error e₂),
           ⟨tm, w₁.calls + 1 + 1 + 1,
             (L₂ ++ [(ajaxBuild [] tokenReq).1]) ++ [(ajaxBuild [] P₄).1]⟩,
           (ajaxBuild [] P₄).2) := by
        unfold postWithTokenV1
        simp only [hgt, ajaxRun, hpost]
        rw [if_pos heq]
        simp only [hgt₂, ajaxRun]
        rcases ho₃ : oracle (w₁.calls + 1 + 1) with e₃ | r₃ <;> rfl
      rw [hfullV1]

/-- The network oracle of the C1 witness: the first POST rejects with
`badtoken`, the token refetch returns a fresh csrf token, the retried POST
resolves. -/
def oracleRetry : Oracle := fun i =>
  if i = 0 then Except.error ⟨"badtoken", "Invalid CSRF token."⟩
  else if i = 1 then Except.ok { queryTokens := some [("csrftoken", "T2")] }
  else Except.ok {}

/-- Witness for C1 at a concrete failing input: cached token `T1`, first
POST rejects `badtoken`, refetch yields `T2`, retry resolves.
`MWCCStatic.postWithToken` resolves with the retry outcome after three
requests and the refreshed cache, while `MWCC.postWithToken` stays pending
forever on the very same input. -/
theorem postWithToken_badtoken_retry_witness :
    (postWithToken oracleRetry ⟨[("csrftoken", "T1")], 0, []⟩ "csrf"
        [("action", PVal.prim (Prim.str "edit"))]).1 = Except.ok {} ∧
    (postWithToken oracleRetry ⟨[("csrftoken", "T1")], 0, []⟩ "csrf"
        [("action", PVal.prim (Prim.str "edit"))]).2.1.calls = 3 ∧
    (postWithToken oracleRetry ⟨[("csrftoken", "T1")], 0, []⟩ "csrf"
        [("action", PVal.prim (Prim.str "edit"))]).2.1.tokens
      = [("csrftoken", "T2")] ∧
    (postWithTokenV1 oracleRetry ⟨[("csrftoken", "T1")], 0, []⟩ "csrf"
        [("action", PVal.prim (Prim.str "edit"))]).1 = PromiseOut.pending := by
  have h := (postWithToken_badtoken_retry oracleRetry
    ⟨[("csrftoken", "T1")], 0, []⟩ "csrf"
    [("action", PVal.prim (Prim.str "edit"))] "T1"
    ⟨[("csrftoken", "T1")], 0, []⟩ ⟨"badtoken", "Invalid CSRF token."⟩
    (by decide) (by decide) (by decide) (by decide)).2 rfl
    { queryTokens := some [("csrftoken", "T2")] } [("csrftoken", "T2")] "T2"
    (by decide) rfl (by decide)
  refine ⟨?_, ?_, h.2.2.1, ?_⟩
  · rw [h.1]; rfl
  · rw [h.2.1]
  · rw [h.2.2.2.2]; rfl

/-! ### Lemmas about the continuation driver -/

theorem runLen_err {oracle : Oracle} {calls : Nat} {e : ErrObj}
    (h : oracle calls = Except.error e) :
    ∀ fuel, runLen oracle calls fuel = 1 := by
  intro fuel
  cases fuel with
  | zero => rfl
  | succ fuel => simp only [runLen, h]

theorem runLen_nocont {oracle : Oracle} {calls : Nat} {res : Resp}
    (h : oracle calls = Except.ok res) (hc : res.resCont = none) :
    ∀ fuel, runLen oracle calls fuel = 1 := by
  intro fuel
  cases fuel with
  | zero => rfl
  | succ fuel => simp only [runLen, h, hc]

theorem runLen_cont {oracle : Oracle} {calls : Nat} {res : Resp} {c : Params}
    (h : oracle calls = Except.ok res) (hc : res.resCont = some c) (fuel : Nat) :
    runLen oracle calls (fuel + 1) = 1 + runLen oracle (calls + 1) fuel := by
  simp only [runLen, h, hc]

theorem contQueryAux_err {oracle : Oracle} {calls : Nat} {e : ErrObj}
    (h : oracle calls = Except.error e) (fuel : Nat) (params : Params)
    (acc : List AjaxOut) :
    contQueryAux oracle fuel params calls acc
      = (acc ++ [Except.error e], calls + 1) := by
  rw [contQueryAux, h]

theorem contQueryAux_nocont {oracle : Oracle} {calls : Nat} {res : Resp}
    (h : oracle calls = Except.ok res) (hc : res.resCont = none)
    (fuel : Nat) (params : Params) (acc : List AjaxOut) :
    contQueryAux oracle fuel params calls acc
      = (acc ++ [Except.ok res], calls + 1) := by
  rw [contQueryAux, h]
  dsimp only
  rw [hc]

theorem contQueryAux_cont0 {oracle : Oracle} {calls : Nat} {res : Resp}
    {c : Params} (h : oracle calls = Except.ok res) (hc : res.resCont = some c)
    (params : Params) (acc : List AjaxOut) :
    contQueryAux oracle 0 params calls acc
      = (acc ++ [Except.ok res], calls + 1) := by
  rw [contQueryAux, h]
  dsimp only
  rw [hc]

theorem contQueryAux_cont {oracle : Oracle} {calls : Nat} {res : Resp}
    {c : Params} (h : oracle calls = Except.ok res) (hc : res.resCont = some c)
    (fuel : Nat) (params : Params) (acc : List AjaxOut) :
    contQueryAux oracle (fuel + 1) params calls acc
      = contQueryAux oracle fuel (jsAssign (ajaxBuild [] params).2 c) (calls + 1)
          (acc ++ [Except.ok res]) := by
  rw [contQueryAux, h]
  dsimp only
  rw [hc]

/-- A continuation run appends, to its accumulator, the raw oracle outcomes
of `runLen` consecutive requests, in request order, and issues exactly that
many requests. -/
theorem contQueryAux_spec (oracle : Oracle) :
    ∀ fuel calls params acc,
      contQueryAux oracle fuel params calls acc =
        (acc ++ (List.range (runLen oracle calls fuel)).map (fun i => oracle (calls + i)),
         calls + runLen oracle calls fuel) := by
  intro fuel
  induction fuel with
  | zero =>
    intro calls params acc
    rcases ho : oracle calls with e | res
    · rw [contQueryAux_err ho, runLen_err ho]
      simp [List.range_succ, ho]
    · rcases hc : res.resCont with _ | c
      · rw [contQueryAux_nocont ho hc, runLen_nocont ho hc]
        simp [List.range_succ, ho]
      · rw [contQueryAux_cont0 ho hc]
        simp [runLen, List.range_succ, ho]
  | succ fuel ih =>
    intro calls params acc
    rcases ho : oracle calls with e | res
    · rw [contQueryAux_err ho, runLen_err ho]
      simp [List.range_succ, ho]
    · rcases hc : res.resCont with _ | c
      · rw [contQueryAux_nocont ho hc, runLen_nocont ho hc]
        simp [List.range_succ, ho]
      · rw [contQueryAux_cont ho hc, runLen_cont ho hc, ih]
        simp only [Prod.mk.injEq]
        constructor
        · rw [Nat.add_comm 1 (runLen oracle (calls + 1) fuel),
            List.range_succ_eq_map]
          simp only [List.map_cons, List.map_map, List.append_assoc,
            List.singleton_append, Nat.add_zero, ho]
          congr 1
          congr 1
          apply List.map_congr_left
          intro i _
          simp only [Function.comp_apply]
          congr 1
          omega
        · omega

/-- The length of a continuation run along a trace whose first `k - 1`
responses carry a truthy `continue` object and whose k-th does not. -/
theorem runLen_spec_ok (oracle : Oracle) :
    ∀ fuel k calls, 1 ≤ k →
      (∀ i, i + 1 < k → ∃ r, oracle (calls + i) = Except.ok r ∧ r.resCont.isSome) →
      (∃ r, oracle (calls + (k - 1)) = Except.ok r ∧ r.resCont = none) →
      runLen oracle calls fuel = min k (fuel + 1) := by
  intro fuel
  induction fuel with
  | zero =>
    intro k calls hk _ _
    simp only [runLen]
    omega
  | succ fuel ih =>
    intro k calls hk hcont hlast
    by_cases hk1 : k = 1
    · subst hk1
      obtain ⟨r, hr, hc⟩ := hlast
      rw [Nat.sub_self, Nat.add_zero] at hr
      rw [runLen_nocont hr hc]
      omega
    · obtain ⟨r, hr, hc⟩ := hcont 0 (by omega)
      rw [Nat.add_zero] at hr
      obtain ⟨c, hcc⟩ := Option.isSome_iff_exists.1 hc
      rw [runLen_cont hr hcc fuel]
      have h1 : ∀ i, i + 1 < k - 1 →
          ∃ r, oracle (calls + 1 + i) = Except.ok r ∧ r.resCont.isSome := by
        intro i hi
        have heq : calls + 1 + i = calls + (i + 1) := by omega
        rw [heq]
        exact hcont (i + 1) (by omega)
      have h2 : ∃ r, oracle (calls + 1 + (k - 1 - 1)) = Except.ok r ∧
          r.resCont = none := by
        have heq : calls + 1 + (k - 1 - 1) = calls + (k - 1) := by omega
        rw [heq]
        exact hlast
      rw [ih (k - 1) (calls + 1) (by omega) h1 h2]
      omega

/-- The length of a continuation run along a trace whose first `j`
responses carry a truthy `continue` object and whose next request fails. -/
theorem runLen_spec_err (oracle : Oracle) :
    ∀ j fuel calls,
      (∀ i, i < j → ∃ r, oracle (calls + i) = Except.ok r ∧ r.resCont.isSome) →
      (∃ e, oracle (calls + j) = Except.error e) →
      j ≤ fuel →
      runLen oracle calls fuel = j + 1 := by
  intro j
  induction j with
  | zero =>
    intro fuel calls _ herr _
    obtain ⟨e, he⟩ := herr
    rw [Nat.add_zero] at he
    rw [runLen_err he]
  | succ j ih =>
    intro fuel calls hcont herr hle
    obtain ⟨r, hr, hc⟩ := hcont 0 (by omega)
    rw [Nat.add_zero] at hr
    obtain ⟨c, hcc⟩ := Option.isSome_iff_exists.1 hc
    rcases fuel with _ | fuel
    · omega
    · rw [runLen_cont hr hcc fuel]
      have h1 : ∀ i, i < j →
          ∃ r, oracle (calls + 1 + i) = Except.ok r ∧ r.resCont.isSome := by
        intro i hi
        have heq : calls + 1 + i = calls + (i + 1) := by omega
        rw [heq]
        exact hcont (i + 1) (by omega)
      have h2 : ∃ e, oracle (calls + 1 + j) = Except.error e := by
        have heq : calls + 1 + j = calls + (j + 1) := by omega
        rw [heq]
        exact herr
      rw [ih fuel (calls + 1) h1 h2 (by omega)]
      omega

/-- C2 (amended): for every parameter map and every limit ≥ 1, if the
response to request i carries a truthy `continue` object for all i < k and
the k-th response does not, `continuedQuery` issues exactly `min k limit`
requests and resolves with exactly those raw responses in request order;
and whenever the first j responses continue and request j + 1 rejects
(with j + 1 ≤ limit), the error value is appended as the last entry and
iteration stops there, the driver itself never rejecting.  (As stated the
claim also covered limit = 0, where the code still issues one request; see
the counterexample.) -/
theorem continuedQuery_spec (oracle : Oracle) (params : Params) (k limit : Nat)
    (hk : 1 ≤ k) (hl : 1 ≤ limit) :
    ((∀ i, i + 1 < k → ∃ r, oracle i = Except.ok r ∧ r.resCont.isSome) →
      (∃ r, oracle (k - 1) = Except.ok r ∧ r.resCont = none) →
      continuedQuery oracle params limit
        = ((List.range (min k limit)).map oracle, min k limit)) ∧
    (∀ j, (∀ i, i < j → ∃ r, oracle i = Except.ok r ∧ r.resCont.isSome) →
      (∃ e, oracle j = Except.error e) → j < limit →
      continuedQuery oracle params limit
        = ((List.range (j + 1)).map oracle, j + 1)) := by
  constructor
  · intro hcont hlast
    unfold continuedQuery
    rw [contQueryAux_spec]
    have hco : ∀ i, i + 1 < k →
        ∃ r, oracle (0 + i) = Except.ok r ∧ r.resCont.isSome := by
      intro i hi
      rw [Nat.zero_add]
      exact hcont i hi
    have hla : ∃ r, oracle (0 + (k - 1)) = Except.ok r ∧ r.resCont = none := by
      rw [Nat.zero_add]
      exact hlast
    have hr := runLen_spec_ok oracle (limit - 1) k 0 hk hco hla
    have hl1 : limit - 1 + 1 = limit := by omega
    rw [hl1] at hr
    rw [hr]
    simp
  · intro j hcont herr hjl
    unfold continuedQuery
    rw [contQueryAux_spec]
    have hco : ∀ i, i < j →
        ∃ r, oracle (0 + i) = Except.ok r ∧ r.resCont.isSome := by
      intro i hi
      rw [Nat.zero_add]
      exact hcont i hi
    have hea : ∃ e, oracle (0 + j) = Except.error e := by
      rw [Nat.zero_add]
      exact herr
    have hr := runLen_spec_err oracle j (limit - 1) 0 hco hea (by omega)
    rw [hr]
    simp

/-- The network oracle of the C2 counterexample and witness: request 0
resolves with a `continue` object, every later request resolves without
one (so k = 2 in the sense of the claim). -/
def oracleCont : Oracle := fun i =>
  if i = 0 then Except.ok { resCont := some [] } else Except.ok {}

/-- C2 counterexample: the claim quantifies over every limit value, but
with limit = 0 the code still issues one request (the attempt count starts
at 1 and `count < limit` is tested only after the first GET), whereas the
claim demands exactly `limit = 0` requests. -/
theorem continuedQuery_zero_limit_counterexample :
    (continuedQuery oracleCont [] 0).2 = 1 ∧
    (continuedQuery oracleCont [] 0).2 ≠ 0 :=
  ⟨rfl, by decide⟩

/-- Witness for C2 (amended) on a concrete trace with k = 2 and limit 10:
two requests, both raw responses accumulated in order. -/
theorem continuedQuery_spec_witness :
    continuedQuery oracleCont [] 10
      = ([Except.ok { resCont := some [] }, Except.ok {}], 2) := by
  have h := (continuedQuery_spec oracleCont [] 2 10 (by omega) (by omega)).1
    (by
      intro i hi
      have hi0 : i = 0 := by omega
      subst hi0
      exact ⟨{ resCont := some [] }, rfl, rfl⟩)
    ⟨{}, rfl, rfl⟩
  rw [h]
  rfl

/-! ### Lemmas about the batch splitter -/

theorem storeGet_append_left :
    ∀ (s t : Store) (r : Nat), r < s.length → storeGet (s ++ t) r = storeGet s r := by
  intro s t
  induction s with
  | nil => intro r hr; simp at hr
  | cons a s ih =>
    intro r hr
    cases r with
    | zero => rfl
    | succ r =>
      simp only [List.cons_append, storeGet, List.getD_cons_succ]
      exact ih r (by simpa using hr)

theorem storeGet_append_self :
    ∀ (s : Store) (a : List Prim), storeGet (s ++ [a]) s.length = a := by
  intro s a
  induction s with
  | nil => rfl
  | cons b s ih =>
    simpa only [List.cons_append, storeGet, List.length_cons, List.getD_cons_succ]
      using ih

theorem storeGet_storeSet_self :
    ∀ (s : Store) (r : Nat) (v : List Prim), r < s.length →
      storeGet (storeSet s r v) r = v := by
  intro s
  induction s with
  | nil => intro r v hr; simp at hr
  | cons a s ih =>
    intro r v hr
    cases r with
    | zero => rfl
    | succ r =>
      simp only [storeSet, List.set_cons_succ, storeGet, List.getD_cons_succ]
      exact ih r v (by simpa using hr)

theorem storeGet_storeSet_ne :
    ∀ (s : Store) (r : Nat) (v : List Prim) (rr : Nat), rr ≠ r →
      storeGet (storeSet s r v) rr = storeGet s rr := by
  intro s
  induction s with
  | nil => intro r v rr _; rfl
  | cons a s ih =>
    intro r v rr hne
    cases r with
    | zero =>
      cases rr with
      | zero => exact absurd rfl hne
      | succ rr => rfl
    | succ r =>
      cases rr with
      | zero => rfl
      | succ rr =>
        simp only [storeSet, List.set_cons_succ, storeGet, List.getD_cons_succ]
        exact ih r v rr (fun h => hne (by rw [h]))

theorem length_storeSet (s : Store) (r : Nat) (v : List Prim) :
    (storeSet s r v).length = s.length :=
  List.length_set s r v

/-- The number of chunks the splice loop produces from a batch of length
`n` under ceiling `c`. -/
def numChunks (c n : Nat) : Nat :=
  if n = 0 then 0 else (n - 1) / c + 1

theorem numChunks_step (c n : Nat) (hc : 1 ≤ c) (hn : 1 ≤ n) :
    numChunks c n = 1 + numChunks c (n - c) := by
  unfold numChunks
  rw [if_neg (by omega)]
  by_cases hle : n ≤ c
  · rw [if_pos (by omega)]
    have : (n - 1) / c = 0 := Nat.div_eq_of_lt (by omega)
    omega
  · rw [if_neg (by omega)]
    have h₁ : n - 1 = (n - c - 1) + c := by omega
    rw [h₁, Nat.add_div_right _ (by omega)]
    omega

theorem numChunks_eq_ceil (c n : Nat) (hc : 1 ≤ c) (hn : 1 ≤ n) :
    numChunks c n = (n + c - 1) / c := by
  unfold numChunks
  rw [if_neg (by omega)]
  have h₁ : n + c - 1 = (n - 1) + c := by omega
  rw [h₁, Nat.add_div_right _ (by omega)]

/-- The splice loop writes the store only at the batch reference. -/
theorem mqLoop_frame (oracle : Oracle) (fields : List String) (ps : MQParams)
    (c bref : Nat) :
    ∀ fuel store calls rr, rr ≠ bref →
      storeGet ((mqLoop oracle fields ps c bref fuel store calls).2.2.1) rr
        = storeGet store rr := by
  intro fuel
  induction fuel with
  | zero => intro store calls rr _; rfl
  | succ fuel ih =>
    intro store calls rr hne
    rw [mqLoop]
    by_cases hb : (storeGet store bref).isEmpty
    · rw [if_pos hb]
    · rw [if_neg hb]
      dsimp only
      rw [ih _ _ rr hne]
      exact storeGet_storeSet_ne store bref _ rr hne

/-- The parameter object posted for one chunk: the copy of the (rewritten)
parameter object with every named field set to the joined chunk. -/
def chunkParamsOf (fields : List String) (ps : MQParams) (mv : String) : MQParams :=
  fields.foldl (fun p key => jsSet p key (MQVal.prim (Prim.str mv))) ps

/-- Characterization of the splice loop: starting from a batch of length n
at reference `bref`, it issues `numChunks c n` POSTs consuming consecutive
oracle outcomes, posts for chunk i the parameter object whose named fields
hold the pipe-joined i-th consecutive run of at most c elements, and ends
with the request counter advanced by the number of chunks. -/
theorem mqLoop_spec (oracle : Oracle) (fields : List String) (ps : MQParams)
    (c bref : Nat) (hc : 1 ≤ c) :
    ∀ fuel store calls, bref < store.length → (storeGet store bref).length ≤ fuel →
      (mqLoop oracle fields ps c bref fuel store calls).1
        = (List.range (numChunks c (storeGet store bref).length)).map
            (fun i => oracle (calls + i)) ∧
      (mqLoop oracle fields ps c bref fuel store calls).2.1
        = (List.range (numChunks c (storeGet store bref).length)).map
            (fun i => chunkParamsOf fields ps
              (jsJoinPipe (((storeGet store bref).drop (c * i)).take c))) ∧
      (mqLoop oracle fields ps c bref fuel store calls).2.2.2
        = calls + numChunks c (storeGet store bref).length := by
  intro fuel
  induction fuel with
  | zero =>
    intro store calls hb hlen
    have hnil : storeGet store bref = [] :=
      List.eq_nil_of_length_eq_zero (by omega)
    rw [mqLoop]
    simp [hnil, numChunks]
  | succ fuel ih =>
    intro store calls hb hlen
    by_cases hempty : storeGet store bref = []
    · rw [mqLoop]
      rw [if_pos (by simp [hempty])]
      simp [hempty, numChunks]
    · have hpos : 1 ≤ (storeGet store bref).length := by
        rcases Nat.eq_zero_or_pos (storeGet store bref).length with h | h
        · exact absurd (List.eq_nil_of_length_eq_zero h) hempty
        · omega
      have hb' : bref < (storeSet store bref ((storeGet store bref).drop c)).length := by
        rw [length_storeSet]; exact hb
      have hget' : storeGet (storeSet store bref ((storeGet store bref).drop c)) bref
          = (storeGet store bref).drop c :=
        storeGet_storeSet_self store bref _ hb
      have hlen' : (storeGet (storeSet store bref ((storeGet store bref).drop c)) bref).length ≤ fuel := by
        rw [hget', List.length_drop]
        omega
      obtain ⟨ih1, ih2, ih3⟩ :=
        ih (storeSet store bref ((storeGet store bref).drop c)) (calls + 1) hb' hlen'
      rw [hget'] at ih1 ih2 ih3
      have hK : numChunks c (storeGet store bref).length
          = 1 + numChunks c ((storeGet store bref).drop c).length := by
        rw [List.length_drop]
        exact numChunks_step c (storeGet store bref).length hc hpos
      rw [mqLoop]
      rw [if_neg (by simp [hempty])]
      dsimp only
      refine ⟨?_, ?_, ?_⟩
      · rw [ih1, hK, Nat.add_comm 1 _, List.range_succ_eq_map]
        simp only [List.map_cons, List.map_map, Nat.add_zero]
        congr 1
        apply List.map_congr_left
        intro i _
        simp only [Function.comp_apply]
        congr 1
        omega
      · rw [ih2, hK, Nat.add_comm 1 _, List.range_succ_eq_map]
        simp only [List.map_cons, List.map_map, Nat.mul_zero, List.drop_zero]
        congr 1
        apply List.map_congr_left
        intro i _
        simp only [Function.comp_apply]
        congr 2
        rw [List.drop_drop, Nat.mul_succ, Nat.add_comm (c * i) c]
      · rw [ih3, hK]
        omega

/-- The rewrite the scan pass applies to a single entry of the copied
parameter object. -/
def mqLimitRewrite (fields : List String) (apilimit : Nat)
    (e : String × MQVal) : String × MQVal :=
  if e.1 ∈ fields then e
  else if e.1.endsWith "limit" ∧ (apilimit = 500 ∨ apilimit = 50) then
    (e.1, MQVal.prim (Prim.str "max"))
  else e

/-- The named fields whose values are not arrays, quoted, in object order
(`nonArrayBatchParams`). -/
def mqOffending (fields : List String) (ps : MQParams) : List String :=
  ps.filterMap (fun e =>
    if e.1 ∈ fields then
      match e.2 with
      | MQVal.arrRef _ => none
      | MQVal.prim _ => some ("\"" ++ e.1 ++ "\"")
    else none)

/-- The string-coerced copies of the named multi-value arrays, in object
order, read against a fixed store (`fieldValues`). -/
def namedCoerced (fields : List String) (store0 : Store) (ps : MQParams) :
    List (List Prim) :=
  ps.filterMap (fun e =>
    if e.1 ∈ fields then
      match e.2 with
      | MQVal.arrRef r => some (coerceArr (storeGet store0 r))
      | MQVal.prim _ => none
    else none)

theorem mqScan_cons_arr (fields : List String) (c : Nat) (k : String)
    (r : Nat) (rest : MQParams) (store : Store) (hf : k ∈ fields) :
    mqScan fields c ((k, MQVal.arrRef r) :: rest) store =
      ((k, MQVal.arrRef r) ::
          (mqScan fields c rest (store ++ [coerceArr (storeGet store r)])).1,
       (mqScan fields c rest (store ++ [coerceArr (storeGet store r)])).2.1,
       store.length ::
          (mqScan fields c rest (store ++ [coerceArr (storeGet store r)])).2.2.1,
       (mqScan fields c rest (store ++ [coerceArr (storeGet store r)])).2.2.2) := by
  conv_lhs => rw [mqScan]
  rw [if_pos hf]

theorem mqScan_cons_prim (fields : List String) (c : Nat) (k : String)
    (p : Prim) (rest : MQParams) (store : Store) (hf : k ∈ fields) :
    mqScan fields c ((k, MQVal.prim p) :: rest) store =
      ((k, MQVal.prim p) :: (mqScan fields c rest store).1,
       (mqScan fields c rest store).2.1,
       (mqScan fields c rest store).2.2.1,
       ("\"" ++ k ++ "\"") :: (mqScan fields c rest store).2.2.2) := by
  conv_lhs => rw [mqScan]
  rw [if_pos hf]

theorem mqScan_cons_limit (fields : List String) (c : Nat) (k : String)
    (v : MQVal) (rest : MQParams) (store : Store) (hf : k ∉ fields)
    (hl : k.endsWith "limit" ∧ (c = 500 ∨ c = 50)) :
    mqScan fields c ((k, v) :: rest) store =
      ((k, MQVal.prim (Prim.str "max")) :: (mqScan fields c rest store).1,
       (mqScan fields c rest store).2.1,
       (mqScan fields c rest store).2.2.1,
       (mqScan fields c rest store).2.2.2) := by
  cases v <;> (conv_lhs => rw [mqScan]) <;> rw [if_neg hf, if_pos hl]

theorem mqScan_cons_keep (fields : List String) (c : Nat) (k : String)
    (v : MQVal) (rest : MQParams) (store : Store) (hf : k ∉ fields)
    (hl : ¬ (k.endsWith "limit" ∧ (c = 500 ∨ c = 50))) :
    mqScan fields c ((k, v) :: rest) store =
      ((k, v) :: (mqScan fields c rest store).1,
       (mqScan fields c rest store).2.1,
       (mqScan fields c rest store).2.2.1,
       (mqScan fields c rest store).2.2.2) := by
  cases v <;> (conv_lhs => rw [mqScan]) <;> rw [if_neg hf, if_neg hl]

theorem mqScan_nonarr (fields : List String) (c : Nat) :
    ∀ (ps : MQParams) (store : Store),
      (mqScan fields c ps store).2.2.2 = mqOffending fields ps := by
  intro ps
  induction ps with
  | nil => intro store; rfl
  | cons e rest ih =>
    intro store
    obtain ⟨k, v⟩ := e
    by_cases hf : k ∈ fields
    · cases v with
      | arrRef r =>
        rw [mqScan_cons_arr fields c k r rest store hf, ih]
        simp [mqOffending, List.filterMap_cons, hf]
      | prim p =>
        rw [mqScan_cons_prim fields c k p rest store hf, ih]
        simp [mqOffending, List.filterMap_cons, hf]
    · by_cases hl : k.endsWith "limit" ∧ (c = 500 ∨ c = 50)
      · rw [mqScan_cons_limit fields c k v rest store hf hl, ih]
        simp [mqOffending, List.filterMap_cons, hf]
      · rw [mqScan_cons_keep fields c k v rest store hf hl, ih]
        simp [mqOffending, List.filterMap_cons, hf]

theorem mqScan_ps (fields : List String) (c : Nat) :
    ∀ (ps : MQParams) (store : Store),
      (mqScan fields c ps store).1 = ps.map (mqLimitRewrite fields c) := by
  intro ps
  induction ps with
  | nil => intro store; rfl
  | cons e rest ih =>
    intro store
    obtain ⟨k, v⟩ := e
    by_cases hf : k ∈ fields
    · cases v with
      | arrRef r =>
        rw [mqScan_cons_arr fields c k r rest store hf, ih]
        simp [mqLimitRewrite, hf]
      | prim p =>
        rw [mqScan_cons_prim fields c k p rest store hf, ih]
        simp [mqLimitRewrite, hf]
    · by_cases hl : k.endsWith "limit" ∧ (c = 500 ∨ c = 50)
      · rw [mqScan_cons_limit fields c k v rest store hf hl, ih]
        simp [mqLimitRewrite, hf, hl]
      · rw [mqScan_cons_keep fields c k v rest store hf hl, ih]
        simp [mqLimitRewrite, hf, hl]

theorem mqScan_store_append (fields : List String) (c : Nat) :
    ∀ (ps : MQParams) (store : Store),
      ∃ t, (mqScan fields c ps store).2.1 = store ++ t := by
  intro ps
  induction ps with
  | nil => intro store; exact ⟨[], by simp [mqScan]⟩
  | cons e rest ih =>
    intro store
    obtain ⟨k, v⟩ := e
    by_cases hf : k ∈ fields
    · cases v with
      | arrRef r =>
        rw [mqScan_cons_arr fields c k r rest store hf]
        obtain ⟨t, ht⟩ := ih (store ++ [coerceArr (storeGet store r)])
        exact ⟨coerceArr (storeGet store r) :: t, by rw [ht]; simp⟩
      | prim p =>
        rw [mqScan_cons_prim fields c k p rest store hf]
        exact ih store
    · by_cases hl : k.endsWith "limit" ∧ (c = 500 ∨ c = 50)
      · rw [mqScan_cons_limit fields c k v rest store hf hl]
        exact ih store
      · rw [mqScan_cons_keep fields c k v rest store hf hl]
        exact ih store

theorem mqScan_refs_ge (fields : List String) (c : Nat) :
    ∀ (ps : MQParams) (store : Store) (x : Nat),
      x ∈ (mqScan fields c ps store).2.2.1 → store.length ≤ x := by
  intro ps
  induction ps with
  | nil => intro store x hx; simp [mqScan] at hx
  | cons e rest ih =>
    intro store x hx
    obtain ⟨k, v⟩ := e
    by_cases hf : k ∈ fields
    · cases v with
      | arrRef r =>
        rw [mqScan_cons_arr fields c k r rest store hf] at hx
        rcases List.mem_cons.1 hx with hx | hx
        · omega
        · have := ih (store ++ [coerceArr (storeGet store r)]) x hx
          simp only [List.length_append, List.length_cons, List.length_nil] at this
          omega
      | prim p =>
        rw [mqScan_cons_prim fields c k p rest store hf] at hx
        exact ih store x hx
    · by_cases hl : k.endsWith "limit" ∧ (c = 500 ∨ c = 50)
      · rw [mqScan_cons_limit fields c k v rest store hf hl] at hx
        exact ih store x hx
      · rw [mqScan_cons_keep fields c k v rest store hf hl] at hx
        exact ih store x hx

theorem mqScan_refs_nil (fields : List String) (c : Nat) :
    ∀ (ps : MQParams) (store : Store),
      (∀ kv ∈ ps, kv.1 ∉ fields) →
      (mqScan fields c ps store).2.2.1 = [] := by
  intro ps
  induction ps with
  | nil => intro store _; rfl
  | cons e rest ih =>
    intro store hno
    obtain ⟨k, v⟩ := e
    have hf : k ∉ fields := hno (k, v) (List.mem_cons_self _ _)
    by_cases hl : k.endsWith "limit" ∧ (c = 500 ∨ c = 50)
    · rw [mqScan_cons_limit fields c k v rest store hf hl]
      exact ih store (fun kv hkv => hno kv (List.mem_cons_of_mem _ hkv))
    · rw [mqScan_cons_keep fields c k v rest store hf hl]
      exact ih store (fun kv hkv => hno kv (List.mem_cons_of_mem _ hkv))

/-- The store and reference components of the scan pass, relative to a base
store `store0` all caller references point into: the final store is the
incoming store extended with the string-coerced copies of the named arrays,
and the collected references are the consecutive allocation indices. -/
theorem mqScan_store_refs (fields : List String) (c : Nat) (store0 : Store) :
    ∀ (ps : MQParams) (store : Store),
      (∃ t, store = store0 ++ t) →
      (∀ k r, (k, MQVal.arrRef r) ∈ ps → k ∈ fields → r < store0.length) →
      (mqScan fields c ps store).2.1 = store ++ namedCoerced fields store0 ps ∧
      (mqScan fields c ps store).2.2.1
        = (List.range (namedCoerced fields store0 ps).length).map
            (fun i => store.length + i) := by
  intro ps
  induction ps with
  | nil => intro store _ _; simp [mqScan, namedCoerced]
  | cons e rest ih =>
    intro store hst hwf
    obtain ⟨k, v⟩ := e
    obtain ⟨t, ht⟩ := hst
    have hwf₂ : ∀ k₁ r₁, (k₁, MQVal.arrRef r₁) ∈ rest → k₁ ∈ fields →
        r₁ < store0.length :=
      fun k₁ r₁ hm hf₁ => hwf k₁ r₁ (List.mem_cons_of_mem _ hm) hf₁
    by_cases hf : k ∈ fields
    · cases v with
      | arrRef r =>
        have hr : r < store0.length := hwf k r (List.mem_cons_self _ _) hf
        have hga : storeGet store r = storeGet store0 r := by
          rw [ht]
          exact storeGet_append_left store0 t r hr
        obtain ⟨h1, h2⟩ := ih (store ++ [coerceArr (storeGet store r)])
          ⟨t ++ [coerceArr (storeGet store r)], by rw [ht, List.append_assoc]⟩ hwf₂
        have hnc : namedCoerced fields store0 ((k, MQVal.arrRef r) :: rest)
            = coerceArr (storeGet store0 r) :: namedCoerced fields store0 rest := by
          simp [namedCoerced, List.filterMap_cons, hf]
        rw [mqScan_cons_arr fields c k r rest store hf]
        constructor
        · rw [h1, hnc, ← hga]
          simp
        · rw [h2, hnc]
          simp only [List.length_cons]
          rw [List.range_succ_eq_map]
          simp only [List.map_cons, List.map_map, Nat.add_zero]
          congr 1
          apply List.map_congr_left
          intro i _
          simp only [Function.comp_apply, List.length_append, List.length_cons,
            List.length_nil]
          omega
      | prim p =>
        obtain ⟨h1, h2⟩ := ih store ⟨t, ht⟩ hwf₂
        have hnc : namedCoerced fields store0 ((k, MQVal.prim p) :: rest)
            = namedCoerced fields store0 rest := by
          simp [namedCoerced, List.filterMap_cons, hf]
        rw [mqScan_cons_prim fields c k p rest store hf]
        exact ⟨by rw [h1, hnc], by rw [h2, hnc]⟩
    · obtain ⟨h1, h2⟩ := ih store ⟨t, ht⟩ hwf₂
      have hnc : namedCoerced fields store0 ((k, v) :: rest)
          = namedCoerced fields store0 rest := by
        simp [namedCoerced, List.filterMap_cons, hf]
      by_cases hl : k.endsWith "limit" ∧ (c = 500 ∨ c = 50)
      · rw [mqScan_cons_limit fields c k v rest store hf hl]
        exact ⟨by rw [h1, hnc], by rw [h2, hnc]⟩
      · rw [mqScan_cons_keep fields c k v rest store hf hl]
        exact ⟨by rw [h1, hnc], by rw [h2, hnc]⟩

theorem storeGet_append_right :
    ∀ (s t : Store) (i : Nat), storeGet (s ++ t) (s.length + i) = storeGet t i := by
  intro s t
  induction s with
  | nil => intro i; simp [storeGet]
  | cons a s ih =>
    intro i
    simp only [List.cons_append, List.length_cons, storeGet]
    rw [Nat.succ_add, List.getD_cons_succ]
    exact ih i

theorem mem_storeGet_append {t : Store} {x : List Prim} (s : Store)
    (hx : x ∈ t) :
    ∃ idx, idx < t.length ∧ storeGet (s ++ t) (s.length + idx) = x := by
  obtain ⟨idx, hidx, hval⟩ := List.mem_iff_getElem.1 hx
  refine ⟨idx, hidx, ?_⟩
  rw [storeGet_append_right]
  unfold storeGet
  rw [List.getD_eq_getElem t [] hidx]
  exact hval

theorem namedCoerced_single (f : String) (store0 : Store) :
    ∀ (ps : MQParams) (r : Nat), (jsKeys ps).Nodup →
      (f, MQVal.arrRef r) ∈ ps →
      namedCoerced [f] store0 ps = [coerceArr (storeGet store0 r)] := by
  intro ps
  induction ps with
  | nil => intro r _ hm; cases hm
  | cons e rest ih =>
    intro r hnd hm
    obtain ⟨k, v⟩ := e
    simp only [jsKeys, List.map_cons, List.nodup_cons] at hnd
    by_cases hk : k = f
    · subst hk
      have hv : v = MQVal.arrRef r := by
        rcases List.mem_cons.1 hm with hmh | hmt
        · exact (congrArg Prod.snd hmh.symm)
        · exact absurd (List.mem_map_of_mem Prod.fst hmt) hnd.1
      subst hv
      have hrest : namedCoerced [k] store0 rest = [] := by
        rw [namedCoerced, List.filterMap_eq_nil_iff]
        intro e he
        have hne : e.1 ≠ k := fun h => hnd.1 (h ▸ List.mem_map_of_mem Prod.fst he)
        by_cases hek : e.1 ∈ ([k] : List String)
        · exact absurd (by simpa using hek) hne
        · rw [if_neg hek]
      have hcons : namedCoerced [k] store0 ((k, MQVal.arrRef r) :: rest)
          = coerceArr (storeGet store0 r) :: namedCoerced [k] store0 rest := by
        simp [namedCoerced, List.filterMap_cons]
      rw [hcons, hrest]
    · have hm₂ : (f, MQVal.arrRef r) ∈ rest := by
        rcases List.mem_cons.1 hm with hmh | hmt
        · exfalso
          apply hk
          have := congrArg Prod.fst hmh
          simpa using this.symm
        · exact hmt
      have hne : k ∉ ([f] : List String) := by simpa using hk
      have hcons : namedCoerced [f] store0 ((k, v) :: rest)
          = namedCoerced [f] store0 rest := by
        simp [namedCoerced, List.filterMap_cons, hk]
      rw [hcons]
      exact ih r hnd.2 hm₂

theorem namedCoerced_mem {fields : List String} {store0 : Store}
    {ps : MQParams} {k : String} {r : Nat}
    (hm : (k, MQVal.arrRef r) ∈ ps) (hf : k ∈ fields) :
    coerceArr (storeGet store0 r) ∈ namedCoerced fields store0 ps :=
  List.mem_filterMap.2 ⟨(k, MQVal.arrRef r), hm, by simp [hf]⟩

theorem jsJoinPipe_str_map (l : List String) :
    jsJoinPipe (l.map Prim.str) = String.intercalate "|" l := by
  unfold jsJoinPipe
  have h : List.map (jsJoinElem ∘ Prim.str) l = List.map id l :=
    List.map_congr_left (fun s _ => rfl)
  rw [List.map_map, h, List.map_id]

theorem jsGet_chunkParamsOf_single (f : String) (ps : MQParams) (mv : String) :
    jsGet (chunkParamsOf [f] ps mv) f = some (MQVal.prim (Prim.str mv)) := by
  unfold chunkParamsOf
  simp only [List.foldl_cons, List.foldl_nil]
  exact jsGet_jsSet_same ps f _

/-- C10: `massQuery` never mutates its caller.  The value of the
caller-supplied parameter object after the call is the object that was
passed in (the method copies it with `Object.assign` before the
`*limit`-to-`max` rewrite and copies it again for each per-chunk request),
and every array the caller can reach is untouched: the splice loop only
writes the freshly allocated string-coerced copies, so every store index
that existed before the call still holds its original array.  This is
unlike `get`/`post`/`ajax`, whose normalization mutates the caller map in
place, as the concrete third conjunct shows. -/
theorem massQuery_frame :
    (∀ (oracle : Oracle) (store0 : Store) (parameters : MQParams)
        (fields0 : List String) (apilimitOpt : Option Nat) (calls0 : Nat),
      (massQuery oracle store0 parameters fields0 apilimitOpt calls0).callerParams
        = parameters) ∧
    (∀ (oracle : Oracle) (store0 : Store) (parameters : MQParams)
        (fields0 : List String) (apilimitOpt : Option Nat) (calls0 : Nat)
        (r : Nat), r < store0.length →
      storeGet (massQuery oracle store0 parameters fields0 apilimitOpt calls0).store r
        = storeGet store0 r) ∧
    ((ajaxBuild [] [("titles", PVal.arr [Prim.str "A", Prim.str "B"])]).2
        = [("titles", PVal.prim (Prim.str "A|B"))] ∧
     (ajaxBuild [] [("titles", PVal.arr [Prim.str "A", Prim.str "B"])]).2
        ≠ [("titles", PVal.arr [Prim.str "A", Prim.str "B"])]) := by
  refine ⟨?_, ?_, by decide, by decide⟩
  · intro oracle store0 parameters fields0 apilimitOpt calls0
    simp only [massQuery]
    split
    · rfl
    · split
      · rfl
      · split
        · rfl
        · split
          · rfl
          · split
            · rfl
            · rfl
  · intro oracle store0 parameters fields0 apilimitOpt calls0 r hr
    obtain ⟨t, ht⟩ := mqScan_store_append (fields0.filter truthyStr)
      (apilimitOpt.getD 50) parameters store0
    have hkeep : storeGet (mqScan (fields0.filter truthyStr)
        (apilimitOpt.getD 50) parameters store0).2.1 r = storeGet store0 r := by
      rw [ht]
      exact storeGet_append_left store0 t r hr
    simp only [massQuery]
    split
    · exact hkeep
    · split
      · exact hkeep
      · split
        · exact hkeep
        · rename_i bref restRefs hrefs
          split
          · exact hkeep
          · split
            · exact hkeep
            · have hge : store0.length ≤ bref := by
                apply mqScan_refs_ge (fields0.filter truthyStr)
                  (apilimitOpt.getD 50) parameters store0 bref
                rw [hrefs]
                exact List.mem_cons_self _ _
              have hne : r ≠ bref := by omega
              rw [mqLoop_frame _ _ _ _ _ _ _ _ r hne]
              exact hkeep

/-- A network oracle whose every request resolves with an empty response
body. -/
def oracleOk : Oracle := fun _ => Except.ok {}

/-- Witness for C10 at a concrete batch call: the splice loop drains a
copy, not the caller array, which is intact in the store afterwards. -/
theorem massQuery_frame_witness :
    (massQuery oracleOk [[Prim.str "A", Prim.str "B", Prim.str "C"]]
        [("titles", MQVal.arrRef 0)] ["titles"] (some 2) 0).callerParams
      = [("titles", MQVal.arrRef 0)] ∧
    storeGet (massQuery oracleOk [[Prim.str "A", Prim.str "B", Prim.str "C"]]
        [("titles", MQVal.arrRef 0)] ["titles"] (some 2) 0).store 0
      = [Prim.str "A", Prim.str "B", Prim.str "C"] := by
  constructor
  · exact massQuery_frame.1 oracleOk _ _ _ _ _
  · rw [massQuery_frame.2.1 oracleOk [[Prim.str "A", Prim.str "B", Prim.str "C"]]
      [("titles", MQVal.arrRef 0)] ["titles"] (some 2) 0 0 (by decide)]
    rfl

/-- C4: `massQuery` validation happens before any network request (the
request counter is unchanged and no chunk is posted) and rejects with:
`nonarray-exception`, naming the offending quoted field(s), when some named
field maps to a non-array value; `emptyfield` when the fields list is empty
after filtering falsy entries; `nomultivalue` when (the fields list being
nonempty and free of non-array violations) none of the named fields is
present in the parameters; and `nonindentical-arrays` when all named
fields map to arrays but two of them differ in length or element-wise
value after string coercion. -/
theorem massQuery_validation (oracle : Oracle) (store0 : Store)
    (parameters : MQParams) (fields0 : List String) (apilimitOpt : Option Nat)
    (calls0 : Nat) :
    ((∃ k p, (k, MQVal.prim p) ∈ parameters ∧
        k ∈ fields0.filter truthyStr) →
      (massQuery oracle store0 parameters fields0 apilimitOpt calls0).result
        = Except.error ⟨"nonarray-exception",
            "The value(s) for " ++ String.intercalate ", "
              (mqOffending (fields0.filter truthyStr) parameters)
            ++ " must be arrays"⟩ ∧
      (massQuery oracle store0 parameters fields0 apilimitOpt calls0).calls = calls0 ∧
      (massQuery oracle store0 parameters fields0 apilimitOpt calls0).chunkLog = []) ∧
    (fields0.filter truthyStr = [] →
      (massQuery oracle store0 parameters fields0 apilimitOpt calls0).result
        = Except.error ⟨"emptyfield", "The \"fields\" parameter is empty"⟩ ∧
      (massQuery oracle store0 parameters fields0 apilimitOpt calls0).calls = calls0 ∧
      (massQuery oracle store0 parameters fields0 apilimitOpt calls0).chunkLog = []) ∧
    (fields0.filter truthyStr ≠ [] →
      (∀ kv ∈ parameters, kv.1 ∉ fields0.filter truthyStr) →
      (massQuery oracle store0 parameters fields0 apilimitOpt calls0).result
        = Except.error ⟨"nomultivalue",
            "There\x27s no multi-value field (check for typos in parameter keys?)"⟩ ∧
      (massQuery oracle store0 parameters fields0 apilimitOpt calls0).calls = calls0 ∧
      (massQuery oracle store0 parameters fields0 apilimitOpt calls0).chunkLog = []) ∧
    ((∀ k r, (k, MQVal.arrRef r) ∈ parameters →
        k ∈ fields0.filter truthyStr → r < store0.length) →
      (∀ k p, (k, MQVal.prim p) ∈ parameters →
        k ∉ fields0.filter truthyStr) →
      (∃ k₁ r₁ k₂ r₂, (k₁, MQVal.arrRef r₁) ∈ parameters ∧
        (k₂, MQVal.arrRef r₂) ∈ parameters ∧
        k₁ ∈ fields0.filter truthyStr ∧
        k₂ ∈ fields0.filter truthyStr ∧
        coerceArr (storeGet store0 r₁) ≠ coerceArr (storeGet store0 r₂)) →
      (massQuery oracle store0 parameters fields0 apilimitOpt calls0).result
        = Except.error ⟨"nonindentical-arrays",
            "The multi-value fields must all have the same array"⟩ ∧
      (massQuery oracle store0 parameters fields0 apilimitOpt calls0).calls = calls0 ∧
      (massQuery oracle store0 parameters fields0 apilimitOpt calls0).chunkLog = []) := by
  refine ⟨?_, ?_, ?_, ?_⟩
  · rintro ⟨k, p, hm, hfk⟩
    have hqm : ("\"" ++ k ++ "\"") ∈ mqOffending (fields0.filter truthyStr) parameters :=
      List.mem_filterMap.2 ⟨(k, MQVal.prim p), hm, by simp [hfk]⟩
    have hne : (mqScan (fields0.filter truthyStr) (apilimitOpt.getD 50)
        parameters store0).2.2.2 ≠ [] := by
      rw [mqScan_nonarr]
      exact List.ne_nil_of_mem hqm
    simp only [massQuery]
    rw [if_pos hne]
    refine ⟨?_, rfl, rfl⟩
    simp only [mqScan_nonarr]
  · intro hfe
    have hno : (mqScan (fields0.filter truthyStr) (apilimitOpt.getD 50)
        parameters store0).2.2.2 = [] := by
      rw [mqScan_nonarr, hfe, mqOffending, List.filterMap_eq_nil_iff]
      intro e _
      simp
    simp only [massQuery]
    rw [if_neg (by simp [hno]), if_pos hfe]
    exact ⟨rfl, rfl, rfl⟩
  · intro hfne hnof
    have hno : (mqScan (fields0.filter truthyStr) (apilimitOpt.getD 50)
        parameters store0).2.2.2 = [] := by
      rw [mqScan_nonarr, mqOffending, List.filterMap_eq_nil_iff]
      intro e he
      have hni := hnof e he
      rw [if_neg hni]
    have hrefs : (mqScan (fields0.filter truthyStr) (apilimitOpt.getD 50)
        parameters store0).2.2.1 = [] :=
      mqScan_refs_nil _ _ parameters store0 hnof
    simp only [massQuery]
    rw [if_neg (by simp [hno]), if_neg hfne, hrefs]
    exact ⟨rfl, rfl, rfl⟩
  · rintro hwf hnoprim ⟨k₁, r₁, k₂, r₂, hm₁, hm₂, hf₁, hf₂, hdiff⟩
    have hno : (mqScan (fields0.filter truthyStr) (apilimitOpt.getD 50)
        parameters store0).2.2.2 = [] := by
      rw [mqScan_nonarr, mqOffending, List.filterMap_eq_nil_iff]
      intro e he
      obtain ⟨ke, ve⟩ := e
      by_cases hef : ke ∈ fields0.filter truthyStr
      · cases ve with
        | arrRef r => dsimp only; rw [if_pos hef]
        | prim p => exact absurd hef (hnoprim ke p he)
      · dsimp only; rw [if_neg hef]
    have hfne : fields0.filter truthyStr ≠ [] := by
      intro h
      rw [h] at hf₁
      cases hf₁
    obtain ⟨hstore, hrefs⟩ := mqScan_store_refs
      (fields0.filter truthyStr) (apilimitOpt.getD 50) store0 parameters
      store0 ⟨[], by simp⟩ hwf
    have hc₁ := @namedCoerced_mem _ store0 _ _ _ hm₁ hf₁
    have hc₂ := @namedCoerced_mem _ store0 _ _ _ hm₂ hf₂
    obtain ⟨a0, ncr, hnc⟩ : ∃ a0 ncr,
        namedCoerced (fields0.filter truthyStr) store0 parameters
          = a0 :: ncr := by
      cases h : namedCoerced (fields0.filter truthyStr) store0 parameters with
      | nil => rw [h] at hc₁; cases hc₁
      | cons a t => exact ⟨a, t, rfl⟩
    rw [hnc] at hc₁ hc₂ hstore hrefs
    have hncrne : ncr ≠ [] := by
      intro h0
      rw [h0] at hc₁ hc₂
      simp at hc₁ hc₂
      exact hdiff (hc₁.trans hc₂.symm)
    rw [List.length_cons, List.range_succ_eq_map, List.map_cons, List.map_map]
      at hrefs
    have hbase : storeGet (store0 ++ a0 :: ncr) (store0.length + 0) = a0 := by
      rw [storeGet_append_right]
      rfl
    have hcond :
        List.map ((fun i => store0.length + i) ∘ Nat.succ) (List.range ncr.length) ≠ [] ∧
        ¬ ∀ r ∈ List.map ((fun i => store0.length + i) ∘ Nat.succ) (List.range ncr.length),
            storeGet (store0 ++ a0 :: ncr) r
              = storeGet (store0 ++ a0 :: ncr) (store0.length + 0) := by
      constructor
      · intro h
        apply hncrne
        have := congrArg List.length h
        simpa using this
      · intro hall
        have helem : ∀ x, x ∈ a0 :: ncr → x = a0 := by
          intro x hx
          obtain ⟨idx, hidx, hval⟩ := mem_storeGet_append store0 hx
          cases idx with
          | zero => rw [hbase] at hval; exact hval.symm
          | succ j =>
            have hjm : store0.length + (j + 1) ∈ List.map
                ((fun i => store0.length + i) ∘ Nat.succ) (List.range ncr.length) := by
              refine List.mem_map.2 ⟨j, List.mem_range.2 ?_, rfl⟩
              simpa using hidx
            have := hall _ hjm
            rw [hval, hbase] at this
            exact this
        exact hdiff ((helem _ hc₁).trans (helem _ hc₂).symm)
    simp only [massQuery]
    rw [if_neg (by simp [hno]), if_neg hfne, hrefs, hstore]
    dsimp only
    rw [if_pos hcond]
    exact ⟨rfl, rfl, rfl⟩

/-- Witness for C4: each of the four validation errors fires on a concrete
call whose counter stays at zero, yielding the exact error codes and info
strings of the source. -/
theorem massQuery_validation_witness :
    (massQuery oracleOk [] [("titles", MQVal.prim (Prim.num 1))]
        ["titles"] (some 2) 0).result
      = Except.error ⟨"nonarray-exception",
          "The value(s) for \"titles\" must be arrays"⟩ ∧
    (massQuery oracleOk [] [] [""] (some 2) 0).result
      = Except.error ⟨"emptyfield", "The \"fields\" parameter is empty"⟩ ∧
    (massQuery oracleOk [] [("action", MQVal.prim (Prim.str "query"))]
        ["titles"] (some 2) 0).result
      = Except.error ⟨"nomultivalue",
          "There\x27s no multi-value field (check for typos in parameter keys?)"⟩ ∧
    (massQuery oracleOk [[Prim.str "A"], [Prim.str "B"]]
        [("titles", MQVal.arrRef 0), ("pageids", MQVal.arrRef 1)]
        ["titles", "pageids"] (some 2) 0).result
      = Except.error ⟨"nonindentical-arrays",
          "The multi-value fields must all have the same array"⟩ := by
  refine ⟨?_, ?_, ?_, ?_⟩
  · have h := (massQuery_validation oracleOk [] [("titles", MQVal.prim (Prim.num 1))]
      ["titles"] (some 2) 0).1 ⟨"titles", Prim.num 1, by decide, by decide⟩
    rw [h.1]
    rfl
  · exact ((massQuery_validation oracleOk [] [] [""] (some 2) 0).2.1 (by decide)).1
  · exact ((massQuery_validation oracleOk [] [("action", MQVal.prim (Prim.str "query"))]
      ["titles"] (some 2) 0).2.2.1 (by decide) (by decide)).1
  · exact ((massQuery_validation oracleOk [[Prim.str "A"], [Prim.str "B"]]
      [("titles", MQVal.arrRef 0), ("pageids", MQVal.arrRef 1)]
      ["titles", "pageids"] (some 2) 0).2.2.2
      (by
        intro k r hm hf
        simp only [List.mem_cons, List.not_mem_nil, or_false, Prod.mk.injEq,
          MQVal.arrRef.injEq] at hm
        rcases hm with ⟨_, hr⟩ | ⟨_, hr⟩ <;> subst hr <;> decide)
      (by intro k p hm; simp at hm)
      ⟨"titles", 0, "pageids", 1, by decide, by decide, by decide, by decide,
        by decide⟩).1

/-- C3: on a valid `massQuery` call with a single multi-value field holding
an array of N elements and ceiling c, exactly ceil(N/c) POSTs are issued
consuming consecutive oracle outcomes (each outcome, resolution or
rejection alike, captured as a value, so the call always resolves with the
full per-chunk list); the i-th posted parameter object carries under the
named field the i-th consecutive run of at most c string-coerced elements
joined with the pipe; an empty array resolves with an empty result and no
request (N = 0 gives ceil(N/c) = 0). -/
theorem massQuery_chunking (oracle : Oracle) (store0 : Store)
    (parameters : MQParams) (f : String) (r c calls0 : Nat)
    (hf : f ≠ "") (hc : 1 ≤ c)
    (hnd : (jsKeys parameters).Nodup)
    (hmem : (f, MQVal.arrRef r) ∈ parameters)
    (hr : r < store0.length) :
    (massQuery oracle store0 parameters [f] (some c) calls0).result
      = Except.ok ((List.range (((storeGet store0 r).length + c - 1) / c)).map
          (fun i => oracle (calls0 + i))) ∧
    (massQuery oracle store0 parameters [f] (some c) calls0).calls
      = calls0 + ((storeGet store0 r).length + c - 1) / c ∧
    (massQuery oracle store0 parameters [f] (some c) calls0).chunkLog.map
        (fun p => jsGet p f)
      = (List.range (((storeGet store0 r).length + c - 1) / c)).map
          (fun i => some (MQVal.prim (Prim.str (String.intercalate "|"
            ((((storeGet store0 r).map jsString).drop (c * i)).take c))))) := by
  have hfl : List.filter truthyStr [f] = [f] := by
    simp [truthyStr, hf]
  have hna : (mqScan [f] c parameters store0).2.2.2 = [] := by
    rw [mqScan_nonarr, mqOffending, List.filterMap_eq_nil_iff]
    intro e he
    obtain ⟨k, v⟩ := e
    by_cases hek : k ∈ ([f] : List String)
    · have hkf : k = f := by simpa using hek
      subst hkf
      have hv : v = MQVal.arrRef r := nodup_keys_eq parameters hnd he hmem
      subst hv
      dsimp only
      rw [if_pos hek]
    · dsimp only
      rw [if_neg hek]
  have hwf : ∀ k r₁, (k, MQVal.arrRef r₁) ∈ parameters →
      k ∈ ([f] : List String) → r₁ < store0.length := by
    intro k r₁ hm hk
    have hkf : k = f := by simpa using hk
    subst hkf
    have hv : MQVal.arrRef r₁ = MQVal.arrRef r := nodup_keys_eq parameters hnd hm hmem
    injection hv with hv
    omega
  obtain ⟨hstore, hrefs⟩ :=
    mqScan_store_refs [f] c store0 parameters store0 ⟨[], by simp⟩ hwf
  have hnc := namedCoerced_single f store0 parameters r hnd hmem
  rw [hnc] at hstore hrefs
  have hrefs₂ : (mqScan [f] c parameters store0).2.2.1 = [store0.length] := by
    rw [hrefs]
    simp [List.range_succ]
  have hbatch : storeGet (store0 ++ [coerceArr (storeGet store0 r)]) store0.length
      = coerceArr (storeGet store0 r) :=
    storeGet_append_self store0 _
  have hcoerce : coerceArr (storeGet store0 r)
      = ((storeGet store0 r).map jsString).map Prim.str := by
    rw [List.map_map]
    rfl
  simp only [massQuery, Option.getD_some]
  rw [hfl, if_neg (by simp [hna]), if_neg (by simp : ¬([f] = ([] : List String))),
    hrefs₂]
  dsimp only
  rw [if_neg (by simp), hstore, hbatch]
  by_cases hempty : storeGet store0 r = []
  · have hK : ((storeGet store0 r).length + c - 1) / c = 0 := by
      rw [hempty]
      simp only [List.length_nil, Nat.zero_add]
      exact Nat.div_eq_of_lt (by omega)
    rw [if_pos (by rw [hempty]; rfl), hK]
    exact ⟨rfl, by simp, rfl⟩
  · have hpos : 1 ≤ (storeGet store0 r).length := by
      rcases Nat.eq_zero_or_pos (storeGet store0 r).length with h | h
      · exact absurd (List.eq_nil_of_length_eq_zero h) hempty
      · omega
    have hKeq : numChunks c (coerceArr (storeGet store0 r)).length
        = ((storeGet store0 r).length + c - 1) / c := by
      rw [coerceArr, List.length_map]
      exact numChunks_eq_ceil c _ hc hpos
    have hcne : coerceArr (storeGet store0 r) ≠ [] := by
      rw [coerceArr]
      simpa using hempty
    rw [if_neg hcne]
    have hb₁ : store0.length < (store0 ++ [coerceArr (storeGet store0 r)]).length := by
      simp
    have hlen₁ : (storeGet (store0 ++ [coerceArr (storeGet store0 r)])
        store0.length).length ≤ (coerceArr (storeGet store0 r)).length := by
      rw [hbatch]
    obtain ⟨h1, h2, h3⟩ := mqLoop_spec oracle [f]
      ((mqScan [f] c parameters store0).1) c store0.length hc
      ((coerceArr (storeGet store0 r)).length)
      (store0 ++ [coerceArr (storeGet store0 r)]) calls0 hb₁ hlen₁
    rw [hbatch] at h1 h2 h3
    have hchunk : ∀ i : Nat,
        jsJoinPipe (((coerceArr (storeGet store0 r)).drop (c * i)).take c)
          = String.intercalate "|"
              ((((storeGet store0 r).map jsString).drop (c * i)).take c) := by
      intro i
      rw [hcoerce, ← List.map_drop, ← List.map_take, jsJoinPipe_str_map]
    refine ⟨?_, ?_, ?_⟩
    · rw [h1, hKeq]
    · rw [h3, hKeq]
    · rw [h2, hKeq, List.map_map]
      apply List.map_congr_left
      intro i _
      simp only [Function.comp_apply]
      rw [jsGet_chunkParamsOf_single, hchunk i]

/-- Witness for C3 at a concrete call: three elements under ceiling 2 give
two POSTs carrying the pipe-joined string-coerced chunks A|2 and C. -/
theorem massQuery_chunking_witness :
    (massQuery oracleOk [[Prim.str "A", Prim.num 2, Prim.str "C"]]
        [("titles", MQVal.arrRef 0)] ["titles"] (some 2) 0).result
      = Except.ok [Except.ok ⟨none, none⟩, Except.ok ⟨none, none⟩] ∧
    (massQuery oracleOk [[Prim.str "A", Prim.num 2, Prim.str "C"]]
        [("titles", MQVal.arrRef 0)] ["titles"] (some 2) 0).calls = 2 ∧
    (massQuery oracleOk [[Prim.str "A", Prim.num 2, Prim.str "C"]]
        [("titles", MQVal.arrRef 0)] ["titles"] (some 2) 0).chunkLog.map
        (fun p => jsGet p "titles")
      = [some (MQVal.prim (Prim.str "A|2")), some (MQVal.prim (Prim.str "C"))] := by
  have h := massQuery_chunking oracleOk [[Prim.str "A", Prim.num 2, Prim.str "C"]]
    [("titles", MQVal.arrRef 0)] "titles" 0 2 0
    (by decide) (by decide) (by decide) (by decide) (by decide)
  refine ⟨?_, ?_, ?_⟩
  · rw [h.1]
    rfl
  · rw [h.2.1]
    rfl
  · rw [h.2.2]
    rfl

end Mwcc
